import Mathlib

/-!
Verification of the request/response pipeline of this repository
(`pywikibot/data/api.py` and `pywikibot/throttle.py`) against its
natural-language specification.

The Python code is shallowly embedded: dictionaries become association
lists, Python strings become Lean `String`s (byte-string values are
represented by their decoded text, since the site codec decodes what it
encoded), wall-clock instants become rationals, and the stateful
collaborators (HTTP transport, sqlite store, on-disk cache) become
explicit values threaded through the functions.
-/

namespace PWB

/-! ## Python string helpers

`pySplit` models Python's `s.split("|")` and `pyJoin` models
`"|".join(xs)`.  Both are defined on the character list underlying a
`String` 	o keep the round-trip lemmas elementary.
-/

/-- Characterwise split on the pipe character; mirrors Python
`str.split("|")`, which returns `[""]` on the empty string and does not
collapse adjacent separators. -/
def splitPipe : List Char → List (List Char)
  | [] => [[]]
  | c :: rest =>
    if c = '|' then [] :: splitPipe rest
    else
      match splitPipe rest with
      | [] => [[c]]
      | h :: t => (c :: h) :: t

/-- Characterwise `"|".join`. -/
def joinPipe (ls : List (List Char)) : List Char :=
  (ls.intersperse ['|']).flatten

theorem splitPipe_ne_nil (cs : List Char) : splitPipe cs ≠ [] := by
  induction cs with
  | nil => simp [splitPipe]
  | cons c rest ih =>
    simp only [splitPipe]
    by_cases h : c = '|'
    · simp [h]
    · simp only [if_neg h]
      cases hrec : splitPipe rest with
      | nil => simp
      | cons h t => simp

theorem joinPipe_cons (l : List Char) (ls : List (List Char)) (h : ls ≠ []) :
    joinPipe (l :: ls) = l ++ '|' :: joinPipe ls := by
  cases ls with
  | nil => exact absurd rfl h
  | cons a t => simp [joinPipe, List.intersperse]

theorem joinPipe_singleton (l : List Char) : joinPipe [l] = l := by
  simp [joinPipe, List.intersperse]

/-- Splitting and re-joining is the identity: `"|".join(s.split("|")) == s`. -/
theorem joinPipe_splitPipe (cs : List Char) : joinPipe (splitPipe cs) = cs := by
  induction cs with
  | nil => simp [splitPipe, joinPipe]
  | cons c rest ih =>
    simp only [splitPipe]
    by_cases h : c = '|'
    · subst h
      rw [if_pos rfl, joinPipe_cons _ _ (splitPipe_ne_nil rest), ih]
      simp
    · rw [if_neg h]
      cases hrec : splitPipe rest with
      | nil => exact absurd hrec (splitPipe_ne_nil rest)
      | cons hd tl =>
        rw [hrec] at ih
        cases tl with
        | nil =>
          rw [joinPipe_singleton] at ih
          rw [joinPipe_singleton, ih]
        | cons b bs =>
          rw [joinPipe_cons _ _ (by simp)] at ih ⊢
          simp only [List.cons_append]
          rw [ih]

theorem splitPipe_append_no_pipe (l cs : List Char) (hl : '|' ∉ l) :
    splitPipe (l ++ cs) =
      match splitPipe cs with
      | [] => [l]
      | h :: t => (l ++ h) :: t := by
  induction l with
  | nil =>
    cases h : splitPipe cs with
    | nil => exact absurd h (splitPipe_ne_nil cs)
    | cons a t => simp [h]
  | cons c cl ih =>
    have hc : c ≠ '|' := by
      intro h; exact hl (by simp [h])
    have hcl : '|' ∉ cl := fun h => hl (List.mem_cons_of_mem _ h)
    cases h : splitPipe cs with
    | nil => exact absurd h (splitPipe_ne_nil cs)
    | cons a t =>
      have ih' : splitPipe (cl ++ cs) = (cl ++ a) :: t := by rw [ih hcl, h]
      simp only [List.cons_append, splitPipe, if_neg hc, h, List.append_eq]
      rw [ih']

/-- Re-splitting a join recovers the original chunks provided the list is
nonempty and no chunk contains a pipe. -/
theorem splitPipe_joinPipe (ls : List (List Char)) (hne : ls ≠ [])
    (hp : ∀ l ∈ ls, '|' ∉ l) : splitPipe (joinPipe ls) = ls := by
  induction ls with
  | nil => exact absurd rfl hne
  | cons l t ih =>
    cases t with
    | nil =>
      simp only [joinPipe, List.intersperse, List.flatten]
      rw [List.append_nil]
      have h := splitPipe_append_no_pipe l [] (hp l (by simp))
      simpa [splitPipe] using h
    | cons b bs =>
      rw [joinPipe_cons _ _ (by simp)]
      have hrest : splitPipe (joinPipe (b :: bs)) = b :: bs :=
        ih (by simp) (fun x hx => hp x (List.mem_cons_of_mem _ hx))
      rw [splitPipe_append_no_pipe l ('|' :: joinPipe (b :: bs)) (hp l (by simp))]
      simp [splitPipe, hrest]

/-- Python `s.split("|")` on `String`. -/
def pySplit (s : String) : List String :=
  (splitPipe s.data).map (fun l => ⟨l⟩)

/-- Python `"|".join(xs)` on `String`. -/
def pyJoin (xs : List String) : String :=
  ⟨joinPipe (xs.map String.data)⟩

/-- Whether a string contains no pipe character. -/
def pipeFree (s : String) : Prop := '|' ∉ s.data

instance (s : String) : Decidable (pipeFree s) := by
  unfold pipeFree; infer_instance

theorem pyJoin_pySplit (s : String) : pyJoin (pySplit s) = s := by
  simp only [pyJoin, pySplit, List.map_map]
  have : (String.data ∘ fun l => (⟨l⟩ : String)) = id := by
    funext l; rfl
  rw [this, List.map_id, joinPipe_splitPipe]

theorem pySplit_pyJoin (xs : List String) (hne : xs ≠ [])
    (hp : ∀ x ∈ xs, pipeFree x) : pySplit (pyJoin xs) = xs := by
  simp only [pySplit, pyJoin]
  rw [splitPipe_joinPipe]
  · simp only [List.map_map]
    have : ((fun l => (⟨l⟩ : String)) ∘ String.data) = id := by
      funext x; rfl
    rw [this, List.map_id]
  · simpa using hne
  · intro l hl
    rcases List.mem_map.mp hl with ⟨x, hx, rfl⟩
    exact hp x hx

theorem pySplit_ne_nil (s : String) : pySplit s ≠ [] := by
  simp only [pySplit]
  intro h
  exact splitPipe_ne_nil s.data (List.map_eq_nil_iff.mp h)

/-! ## Python `str()` of integers -/

/-- Decimal digit character of `n % 10`. -/
def digitChar10 (n : Nat) : Char :=
  Char.ofNat (48 + n % 10)

/-- Decimal representation of a natural number, mirroring Python `str(n)`. -/
def natToStr (n : Nat) : String :=
  ⟨go n⟩
where
  /-- Digit list of `n`, most significant first. -/
  go : Nat → List Char
    | 0 => ['0']
    | n + 1 => aux (n + 1)
  /-- Digits of a positive number. -/
  aux : Nat → List Char
    | 0 => []
    | n + 1 =>
      aux ((n + 1) / 10) ++ [digitChar10 (n + 1)]
  decreasing_by exact Nat.div_lt_self (Nat.succ_pos n) (by omega)

/-- Python `str(i)` for integers. -/
def intToStr (i : Int) : String :=
  if i < 0 then ⟨'-' :: (natToStr i.natAbs).data⟩ else natToStr i.natAbs

theorem digitChar10_ne_pipe (n : Nat) : digitChar10 n ≠ '|' := by
  have h : n % 10 < 10 := Nat.mod_lt _ (by omega)
  unfold digitChar10
  interval_cases h' : n % 10 <;> simp_all +decide

theorem natToStr_aux_pipeFree (n : Nat) : '|' ∉ natToStr.aux n := by
  induction n using Nat.strong_induction_on with
  | _ n ih =>
    match n with
    | 0 => simp [natToStr.aux]
    | n + 1 =>
      rw [natToStr.aux]
      intro hmem
      rcases List.mem_append.mp hmem with h | h
      · exact ih ((n + 1) / 10) (Nat.div_lt_self (Nat.succ_pos n) (by omega)) h
      · simp only [List.mem_singleton] at h
        exact digitChar10_ne_pipe (n + 1) h.symm

/-- The decimal text of a natural number never contains a pipe. -/
theorem natToStr_pipeFree (n : Nat) : pipeFree (natToStr n) := by
  unfold pipeFree natToStr
  match n with
  | 0 => decide
  | n + 1 =>
    show '|' ∉ natToStr.go (n + 1)
    rw [natToStr.go]
    exact natToStr_aux_pipeFree (n + 1)

/-! ## C2: `Request.wait` retry backoff (api.py lines 582-591)

The mutable attributes `max_retries` and `retry_wait` of a `Request`
form the retry state; `wait()` decrements the budget, raises
`TimeoutError` when it drops below zero, sleeps the current wait and
then doubles it, capping at 120.
-/

/-- Mutable backoff state of a `Request`: `max_retries` (an int, may go
negative conceptually) and `retry_wait` in seconds. -/
structure RetryState where
  max_retries : Int
  retry_wait : Nat
deriving DecidableEq, Repr

/-- One call of `Request.wait`: either raises `TimeoutError` (modelled by
`Except.error`) or returns the duration slept together with the new state.

Source:
    self.max_retries -= 1
    if self.max_retries < 0:
        raise TimeoutError(...)
    time.sleep(self.retry_wait)
    self.retry_wait = min(120, self.retry_wait * 2)
-/
def waitStep (s : RetryState) : Except Unit (Nat × RetryState) :=
  let m := s.max_retries - 1
  if m < 0 then Except.error ()
  else Except.ok (s.retry_wait, ⟨m, min 120 (s.retry_wait * 2)⟩)

/-- Run `k` consecutive calls of `wait()`, collecting the slept
durations; errors as soon as one call raises. -/
def waitRun : Nat → RetryState → Except Unit (List Nat × RetryState)
  | 0, s => Except.ok ([], s)
  | k + 1, s =>
    match waitStep s with
    | Except.error _ => Except.error ()
    | Except.ok (d, s') =>
      match waitRun k s' with
      | Except.error _ => Except.error ()
      | Except.ok (ds, s'') => Except.ok (d :: ds, s'')

theorem min120_double_pow (w i : Nat) :
    min 120 (min 120 (w * 2) * 2 ^ i) = min 120 (w * 2 * 2 ^ i) := by
  rcases le_or_lt (w * 2) 120 with h | h
  · rw [Nat.min_eq_right h]
  · have h1 : min 120 (w * 2) = 120 := Nat.min_eq_left (Nat.le_of_lt h)
    rw [h1]
    have hpow : 1 ≤ 2 ^ i := Nat.one_le_two_pow
    have h2 : (120 : Nat) ≤ 120 * 2 ^ i := Nat.le_mul_of_pos_right _ (by omega)
    have h3 : (120 : Nat) ≤ w * 2 * 2 ^ i := by
      calc (120 : Nat) ≤ w * 2 := Nat.le_of_lt h
        _ ≤ w * 2 * 2 ^ i := Nat.le_mul_of_pos_right _ (by omega)
    rw [Nat.min_eq_left h2, Nat.min_eq_left h3]

theorem waitRun_ok (k : Nat) (n : Int) (w : Nat) (hw : w ≤ 120)
    (hk : (k : Int) ≤ n) :
    ∃ s', waitRun k ⟨n, w⟩ =
        Except.ok ((List.range k).map (fun i => min 120 (w * 2 ^ i)), s') ∧
      s'.max_retries = n - k := by
  induction k generalizing n w with
  | zero => exact ⟨⟨n, w⟩, rfl, by simp⟩
  | succ k ih =>
    have hn : ¬ (n - 1 < 0) := by omega
    have hk' : (k : Int) ≤ n - 1 := by push_cast at hk ⊢; omega
    obtain ⟨s', hrun, hm⟩ := ih (n - 1) (min 120 (w * 2)) (Nat.min_le_left _ _) hk'
    refine ⟨s', ?_, by rw [hm]; push_cast; omega⟩
    have hstep : waitRun (k + 1) ⟨n, w⟩ =
        match waitRun k ⟨n - 1, min 120 (w * 2)⟩ with
        | Except.error _ => Except.error ()
        | Except.ok (ds, s'') => Except.ok (w :: ds, s'') := by
      simp only [waitRun, waitStep]
      rw [if_neg hn]
    rw [hstep, hrun]
    have hlist : (List.range (k + 1)).map (fun i => min 120 (w * 2 ^ i)) =
        w :: (List.range k).map (fun i => min 120 (min 120 (w * 2) * 2 ^ i)) := by
      rw [List.range_succ_eq_map, List.map_cons, List.map_map]
      congr 1
      · simp [Nat.min_eq_right hw]
      · apply List.map_congr_left
        intro i _
        simp only [Function.comp_apply]
        rw [min120_double_pow w i]
        congr 1
        rw [pow_succ]
        ring
    rw [hlist]

theorem waitRun_err (k : Nat) : ∀ (n : Int) (w : Nat), n ≤ (k : Int) →
    waitRun (k + 1) ⟨n, w⟩ = Except.error () := by
  induction k with
  | zero =>
    intro n w h
    have hneg : n - 1 < 0 := by omega
    simp only [waitRun, waitStep]
    rw [if_pos hneg]
  | succ k ih =>
    intro n w h
    by_cases hneg : n - 1 < 0
    · simp only [waitRun, waitStep]
      rw [if_pos hneg]
    · have hstep : waitStep ⟨n, w⟩ =
          Except.ok (w, ⟨n - 1, min 120 (w * 2)⟩) := by
        simp only [waitStep]
        rw [if_neg hneg]
      have hstep2 : waitRun (k + 1 + 1) ⟨n, w⟩ =
          match waitRun (k + 1) ⟨n - 1, min 120 (w * 2)⟩ with
          | Except.error _ => Except.error ()
          | Except.ok (ds, s'') => Except.ok (w :: ds, s'') := by
        conv_lhs => rw [waitRun]
        rw [hstep]
      rw [hstep2, ih (n - 1) (min 120 (w * 2)) (by push_cast at h ⊢; omega)]

theorem waitRun_exhaust (n w : Nat) :
    waitRun (n + 1) ⟨(n : Int), w⟩ = Except.error () :=
  waitRun_err n (n : Int) w (le_refl _)

/-- C2 (amended): for every Request with initial retry budget `n` and
initial base wait `w ≤ 120`, the `k`-th call to `wait()` (`k` from 0)
sleeps `min(120, w * 2^k)`, and the call after the budget is exhausted
(more than `n` calls) raises a timeout error instead of sleeping.  (The
amendment restricts `w` to at most the 120-unit ceiling: the very first
call sleeps the uncapped initial wait, so for `w > 120` the claimed
formula fails at `k = 0`.) -/
theorem claim_C2_backoff_amended (n w : Nat) (hw : w ≤ 120) :
    (∃ s', waitRun n ⟨(n : Int), w⟩ =
        Except.ok ((List.range n).map (fun k => min 120 (w * 2 ^ k)), s')) ∧
    waitRun (n + 1) ⟨(n : Int), w⟩ = Except.error () := by
  constructor
  · obtain ⟨s', h, _⟩ := waitRun_ok n (n : Int) w hw (le_refl _)
    exact ⟨s', h⟩
  · exact waitRun_exhaust n w

/-- Witness for C2: with budget 3 and base wait 5, the three sleeps are
5, 10, 20 and the fourth call raises. -/
theorem claim_C2_backoff_witness :
    (∃ s', waitRun 3 ⟨((3 : Nat) : Int), 5⟩ =
        Except.ok ((List.range 3).map (fun k => min 120 (5 * 2 ^ k)), s')) ∧
    waitRun 4 ⟨((3 : Nat) : Int), 5⟩ = Except.error () :=
  claim_C2_backoff_amended 3 5 (by decide)

/-- Counterexample to C2 as stated: with initial base wait `w = 200`
(> 120) and budget 1, call 0 sleeps 200 time units, not
`min(120, 200 * 2^0) = 120` as the claim requires. -/
theorem claim_C2_backoff_cex :
    waitRun 1 ⟨(1 : Int), 200⟩ = Except.ok ([200], ⟨0, 120⟩) ∧
    min 120 (200 * 2 ^ 0) ≠ 200 := by
  constructor
  · rfl
  · decide

/-! ## ParameterSet and `Request.http_params` (api.py lines 275-325)

A Python parameter dict is embedded as an insertion-ordered association
list.  Setting an existing key replaces its value in place; setting a
new key appends, matching CPython dict semantics.
-/

/-- Value of a request parameter as supplied by the caller: a text
scalar (also standing for a byte string, via its decoded text), a list
of texts, or a non-iterable scalar given by its Python `str()` text. -/
inductive PValue where
  | str (s : String)
  | list (l : List String)
  | other (s : String)
deriving DecidableEq, Repr

/-- Parameter dict with arbitrary values, as held in `Request.params`. -/
abbrev Params := List (String × PValue)

/-- Parameter dict after the splitting loop, where every value is a list
of strings. -/
abbrev ParamsL := List (String × List String)

/-- First value stored under a key (`dict.get`). -/
def lget {α : Type} (p : List (String × α)) (k : String) : Option α :=
  match p with
  | [] => none
  | (k', v) :: t => if k' = k then some v else lget t k

/-- Key membership (`k in d`). -/
def lmem {α : Type} (p : List (String × α)) (k : String) : Bool :=
  (lget p k).isSome

/-- Dict assignment `d[k] = v`: update in place or append. -/
def lset {α : Type} (p : List (String × α)) (k : String) (v : α) :
    List (String × α) :=
  match p with
  | [] => [(k, v)]
  | (k', v') :: t => if k' = k then (k, v) :: t else (k', v') :: lset t k v

theorem lget_lset_self {α : Type} (p : List (String × α)) (k : String) (v : α) :
    lget (lset p k v) k = some v := by
  induction p with
  | nil => simp [lget, lset]
  | cons kv t ih =>
    by_cases h : kv.1 = k
    · simp [lset, lget, h]
    · simp [lset, lget, h, ih]

theorem lget_lset_ne {α : Type} (p : List (String × α)) (k k' : String) (v : α)
    (h : k ≠ k') : lget (lset p k v) k' = lget p k' := by
  induction p with
  | nil => simp [lget, lset, h]
  | cons kv t ih =>
    by_cases hk : kv.1 = k
    · simp [lset, lget, hk, h]
    · by_cases hk' : kv.1 = k'
      · simp [lset, lget, hk, hk', Ne.symm h]
      · simp [lset, lget, hk, hk', ih]

theorem lset_lget_id {α : Type} (p : List (String × α)) (k : String) (v : α)
    (h : lget p k = some v) : lset p k v = p := by
  induction p with
  | nil => simp [lget] at h
  | cons kv t ih =>
    obtain ⟨a, b⟩ := kv
    by_cases hk : a = k
    · simp only [lget, if_pos hk] at h
      subst hk
      injection h with h'
      simp [lset, h']
    · simp only [lget, if_neg hk] at h
      simp [lset, hk, ih h]

theorem mem_lset {α : Type} (kv : String × α) (p : List (String × α))
    (k : String) (v : α) (h : kv ∈ lset p k v) : kv = (k, v) ∨ kv ∈ p := by
  induction p with
  | nil => simpa [lset] using h
  | cons kv' t ih =>
    by_cases hk : kv'.1 = k
    · simp only [lset, if_pos hk, List.mem_cons] at h
      rcases h with h | h
      · exact Or.inl h
      · exact Or.inr (List.mem_cons_of_mem _ h)
    · simp only [lset, if_neg hk, List.mem_cons] at h
      rcases h with h | h
      · exact Or.inr (by simp [h])
      · rcases ih h with h' | h'
        · exact Or.inl h'
        · exact Or.inr (List.mem_cons_of_mem _ h')

theorem lmem_lset_self {α : Type} (p : List (String × α)) (k : String) (v : α) :
    lmem (lset p k v) k = true := by
  simp [lmem, lget_lset_self]

/-- Normalization of a single value by the splitting loop: strings are
split on pipes, iterables are kept, non-iterables become one-element
lists of their `str()`. -/
def splitVal : PValue → List String
  | PValue.str s => pySplit s
  | PValue.list l => l
  | PValue.other s => [s]

/-- The per-key splitting loop of `http_params`. -/
def splitPhase (p : Params) : ParamsL :=
  p.map (fun kv => (kv.1, splitVal kv.2))

/-- Lexicographic strictly-less-than on code-point lists, matching
Python's string comparison. -/
def lexLt : List Char → List Char → Bool
  | [], [] => false
  | [], _ :: _ => true
  | _ :: _, [] => false
  | a :: as, b :: bs =>
    if a.toNat < b.toNat then true
    else if b.toNat < a.toNat then false
    else lexLt as bs

/-- Python's `a <= b` on strings: not `b < a`. -/
def pyLe (a b : String) : Prop := lexLt b.data a.data = false

instance : DecidableRel pyLe := fun a b =>
  inferInstanceAs (Decidable (lexLt b.data a.data = false))

theorem lexLt_nil_right (u : List Char) : lexLt u [] = false := by
  cases u <;> rfl

theorem lexLt_trans_false (u : List Char) : ∀ v w : List Char,
    lexLt v u = false → lexLt w v = false → lexLt w u = false := by
  induction u with
  | nil => intro v w _ _; exact lexLt_nil_right w
  | cons a as ih =>
    intro v w h1 h2
    cases v with
    | nil => simp [lexLt] at h1
    | cons b bs =>
      cases w with
      | nil => simp [lexLt] at h2
      | cons c cs =>
        simp only [lexLt] at h1 h2 ⊢
        split_ifs at h1 h2 ⊢ <;>
          first
          | rfl
          | omega
          | exact ih bs cs h1 h2
          | simp at h1
          | simp at h2

theorem lexLt_antisymm (u : List Char) : ∀ v : List Char,
    lexLt u v = false → lexLt v u = false → u = v := by
  induction u with
  | nil =>
    intro v h1 _
    cases v with
    | nil => rfl
    | cons b bs => simp [lexLt] at h1
  | cons a as ih =>
    intro v h1 h2
    cases v with
    | nil => simp [lexLt] at h2
    | cons b bs =>
      simp only [lexLt] at h1 h2
      by_cases hab : a.toNat < b.toNat
      · rw [if_pos hab] at h1
        simp at h1
      · by_cases hba : b.toNat < a.toNat
        · rw [if_pos hba] at h2
          simp at h2
        · rw [if_neg hab, if_neg hba] at h1
          rw [if_neg hba, if_neg hab] at h2
          have htn : a.toNat = b.toNat := by omega
          have hval : a = b := Char.ext (UInt32.ext htn)
          rw [hval, ih bs h1 h2]

theorem lexLt_asymm (u : List Char) : ∀ v : List Char,
    lexLt u v = true → lexLt v u = false := by
  induction u with
  | nil =>
    intro v _
    exact lexLt_nil_right v
  | cons a as ih =>
    intro v h
    cases v with
    | nil => simp [lexLt] at h
    | cons b bs =>
      simp only [lexLt] at h ⊢
      split_ifs at h ⊢ <;>
        first
        | rfl
        | omega
        | exact ih bs h
        | simp at h

instance : IsTotal String pyLe := by
  constructor
  intro a b
  unfold pyLe
  rcases Bool.eq_false_or_eq_true (lexLt b.data a.data) with h | h
  · exact Or.inr (lexLt_asymm b.data a.data h)
  · exact Or.inl h

instance : IsTrans String pyLe := by
  constructor
  intro a b c h1 h2
  exact lexLt_trans_false a.data b.data c.data h1 h2

instance : IsAntisymm String pyLe := by
  constructor
  intro a b h1 h2
  cases a; cases b
  exact congrArg String.mk (lexLt_antisymm _ _ h2 h1)

/-- Python `sorted(set(l))` for strings: distinct elements in ascending
code-point order. -/
def pySortedSet (l : List String) : List String :=
  List.insertionSort pyLe l.dedup

/-- Python `list(set(l))`. CPython's set iteration order is
implementation defined; the model fixes it to first-occurrence order. -/
def pySetList (l : List String) : List String :=
  l.dedup

/-- First injection for read queries (api.py lines 298-301): a
`userinfo` probe is appended to `meta` unless already requested. -/
def metaStep (p : ParamsL) : ParamsL :=
  let meta := (lget p "meta").getD []
  if "userinfo" ∈ meta then p else lset p "meta" (meta ++ ["userinfo"])

/-- Second injection (api.py lines 302-304): `blockinfo` and `hasmsg`
are merged into `uiprop` with `sorted(set(...))` semantics. -/
def uipropStep (p : ParamsL) : ParamsL :=
  lset p "uiprop"
    (pySortedSet ((lget p "uiprop").getD [] ++ ["blockinfo", "hasmsg"]))

/-- Third injection (api.py lines 305-309): when an `info` property
query is requested, fixed extra fields are merged with `inprop` into
`info` with `list(set(...))` semantics. -/
def infoStep (p : ParamsL) : ParamsL :=
  match lget p "properties" with
  | some props =>
    if "info" ∈ props then
      lset p "info"
        (pySetList ((lget p "inprop").getD [] ++
          ["protection", "talkid", "subjectid"]))
    else p
  | none => p

/-- Auxiliary-parameter injection performed when the action is a read
query (api.py lines 297-309). -/
def queryInject (p : ParamsL) : ParamsL :=
  infoStep (uipropStep (metaStep p))

/-- Site and configuration context consumed by `http_params`: the
configured `maxlag` default (0 being falsy disables injection), the
site-encoding success predicate, and the keys of `mime_params`. -/
structure SiteConfig where
  maxlag : Nat
  encodable : String → Bool
  mimeKeys : List String

/-- Exceptions `http_params` can raise. -/
inductive NormErr where
  | valueError
  | keyError
  | typeError
deriving DecidableEq, Repr

/-- Query injection guarded by the action test of api.py line 297. -/
def actionStep (p : ParamsL) (a : List String) : ParamsL :=
  if a = ["query"] then queryInject p else p

/-- Injection of the configured `maxlag` default when absent and truthy
(api.py lines 310-311). -/
def maxlagStep (cfg : SiteConfig) (p : ParamsL) : ParamsL :=
  if !(lmem p "maxlag") && (cfg.maxlag != 0) then
    lset p "maxlag" [natToStr cfg.maxlag]
  else p

/-- Defaulting of the response format to `json` (api.py lines 312-313). -/
def formatStep (p : ParamsL) : ParamsL :=
  if !(lmem p "format") then lset p "format" ["json"] else p

/-- Middle part of `http_params`: the query injection, the `maxlag`
default, and the forced `json` format, on the split parameter dict.
Raises `KeyError` when no action is present and `TypeError` when a
format other than `json` is requested (api.py lines 314-316). -/
def normSteps (cfg : SiteConfig) (p1 : ParamsL) : Except NormErr ParamsL :=
  match lget p1 "action" with
  | none => Except.error NormErr.keyError
  | some a =>
    if lget (formatStep (maxlagStep cfg (actionStep p1 a))) "format" ≠ some ["json"]
    then Except.error NormErr.typeError
    else Except.ok (formatStep (maxlagStep cfg (actionStep p1 a)))

/-- Final loop of `http_params`: every value list is re-joined with `|`
and encoded in the site encoding; a key whose value fails to encode is
reported on the error log (`pywikibot.error`) and kept as its joined
text. Returns the resulting dict together with the logged keys. -/
def joinEncode (cfg : SiteConfig) (p : ParamsL) : Params × List String :=
  (p.map (fun kv => (kv.1, PValue.str (pyJoin kv.2))),
   (p.filter (fun kv => !cfg.encodable (pyJoin kv.2))).map Prod.fst)

/-- `Request.http_params`: the in-place normalization of `self.params`,
returning the normalized dict and the list of keys whose encoding
failure was logged. `Except.error` models the raised exceptions. -/
def http_params (cfg : SiteConfig) (p : Params) : Except NormErr (Params × List String) :=
  if (p.map Prod.fst).filter (fun k => k ∈ cfg.mimeKeys) ≠ [] then
    Except.error NormErr.valueError
  else
    (normSteps cfg (splitPhase p)).map (fun p4 => joinEncode cfg p4)

/-- Normalization as a ParameterSet transformer (the spec's
`normalize`): the state of `self.params` after `http_params` ran. -/
def normalize (cfg : SiteConfig) (p : Params) : Except NormErr Params :=
  (http_params cfg p).map Prod.fst

/-! ### Facts about the injection steps -/

theorem lget_mem {α : Type} (p : List (String × α)) (k : String) (v : α)
    (h : lget p k = some v) : (k, v) ∈ p := by
  induction p with
  | nil => simp [lget] at h
  | cons kv t ih =>
    obtain ⟨a, b⟩ := kv
    by_cases hk : a = k
    · simp only [lget, if_pos hk] at h
      injection h with h'
      subst hk; subst h'
      exact List.mem_cons_self _ _
    · simp only [lget, if_neg hk] at h
      exact List.mem_cons_of_mem _ (ih h)

theorem pySortedSet_mem (l : List String) (x : String) :
    x ∈ pySortedSet l ↔ x ∈ l := by
  unfold pySortedSet
  rw [List.mem_insertionSort, List.mem_dedup]

theorem pySortedSet_sorted (l : List String) :
    (pySortedSet l).Sorted pyLe :=
  List.sorted_insertionSort _ _

theorem pySortedSet_nodup (l : List String) : (pySortedSet l).Nodup :=
  (List.perm_insertionSort _ _).nodup_iff.mpr (List.nodup_dedup l)

theorem pySortedSet_append_mem (A e : List String)
    (hs : A.Sorted pyLe) (hn : A.Nodup)
    (hsub : ∀ x ∈ e, x ∈ A) : pySortedSet (A ++ e) = A := by
  apply List.eq_of_perm_of_sorted ?_ (pySortedSet_sorted _) hs
  rw [List.perm_ext_iff_of_nodup (pySortedSet_nodup _) hn]
  intro x
  rw [pySortedSet_mem, List.mem_append]
  constructor
  · rintro (h | h)
    · exact h
    · exact hsub x h
  · exact Or.inl

/-- A value list satisfying this predicate survives the join/split
round trip of two normalization runs exactly. -/
def goodList (l : List String) : Prop :=
  l ≠ [] ∧ ∀ s ∈ l, pipeFree s

/-- All values of a split parameter dict are wire safe. -/
def goodL (p : ParamsL) : Prop := ∀ kv ∈ p, goodList kv.2

/-- All values of a caller-supplied parameter dict normalize to wire
safe lists: every sequence value is nonempty and its elements carry no
pipe character. -/
def wireSafe (p : Params) : Prop := ∀ kv ∈ p, goodList (splitVal kv.2)

instance {ε α : Type} [DecidableEq ε] [DecidableEq α] :
    DecidableEq (Except ε α) := fun a b =>
  match a, b with
  | Except.error e, Except.error e' =>
    if h : e = e' then Decidable.isTrue (by rw [h])
    else Decidable.isFalse (by intro hc; injection hc; exact h (by assumption))
  | Except.error _, Except.ok _ => Decidable.isFalse (by intro hc; cases hc)
  | Except.ok _, Except.error _ => Decidable.isFalse (by intro hc; cases hc)
  | Except.ok x, Except.ok y =>
    if h : x = y then Decidable.isTrue (by rw [h])
    else Decidable.isFalse (by intro hc; injection hc; exact h (by assumption))

instance (l : List String) : Decidable (goodList l) := by
  unfold goodList; infer_instance

instance (p : Params) : Decidable (wireSafe p) := by
  unfold wireSafe; infer_instance

theorem splitPipe_chunk_pipeFree (cs : List Char) :
    ∀ l ∈ splitPipe cs, '|' ∉ l := by
  induction cs with
  | nil =>
    intro l hl
    simp only [splitPipe, List.mem_singleton] at hl
    simp [hl]
  | cons c rest ih =>
    intro l hl
    simp only [splitPipe] at hl
    by_cases h : c = '|'
    · rw [if_pos h] at hl
      rcases List.mem_cons.mp hl with h' | h'
      · simp [h']
      · exact ih l h'
    · rw [if_neg h] at hl
      cases hrec : splitPipe rest with
      | nil => exact absurd hrec (splitPipe_ne_nil rest)
      | cons a t =>
        rw [hrec] at hl
        rcases List.mem_cons.mp hl with h' | h'
        · subst h'
          intro hm
          rcases List.mem_cons.mp hm with h'' | h''
          · exact h h''.symm
          · exact ih a (by rw [hrec]; exact List.mem_cons_self _ _) h''
        · exact ih l (by rw [hrec]; exact List.mem_cons_of_mem _ h')

theorem pySplit_good (s : String) : goodList (pySplit s) := by
  refine ⟨pySplit_ne_nil s, ?_⟩
  intro x hx
  rcases List.mem_map.mp hx with ⟨l, hl, rfl⟩
  exact splitPipe_chunk_pipeFree s.data l hl

theorem splitVal_good (v : PValue) (h : goodList (splitVal v)) :
    goodList (splitVal v) := h

theorem splitPhase_good (p : Params) (hw : wireSafe p) :
    goodL (splitPhase p) := by
  intro kv hkv
  rcases List.mem_map.mp hkv with ⟨kv', hkv', rfl⟩
  exact hw kv' hkv'

theorem goodL_lset (p : ParamsL) (k : String) (v : List String)
    (hp : goodL p) (hv : goodList v) : goodL (lset p k v) := by
  intro kv hkv
  rcases mem_lset kv p k v hkv with h | h
  · rw [h]; exact hv
  · exact hp kv h

theorem goodL_lget (p : ParamsL) (k : String) (v : List String)
    (hp : goodL p) (h : lget p k = some v) : goodList v :=
  hp (k, v) (lget_mem p k v h)

theorem lmem_lset_ne {α : Type} (p : List (String × α)) (k k' : String) (v : α)
    (h : k ≠ k') : lmem (lset p k v) k' = lmem p k' := by
  simp [lmem, lget_lset_ne p k k' v h]

/-! Lookups under keys the three injection steps never write. -/

theorem lget_metaStep_ne (p : ParamsL) (k : String) (h : k ≠ "meta") :
    lget (metaStep p) k = lget p k := by
  unfold metaStep
  by_cases hui : "userinfo" ∈ (lget p "meta").getD []
  · rw [if_pos hui]
  · rw [if_neg hui, lget_lset_ne _ _ _ _ (Ne.symm h)]

theorem lget_uipropStep_ne (p : ParamsL) (k : String) (h : k ≠ "uiprop") :
    lget (uipropStep p) k = lget p k := by
  unfold uipropStep
  rw [lget_lset_ne _ _ _ _ (Ne.symm h)]

theorem lget_infoStep_ne (p : ParamsL) (k : String) (h : k ≠ "info") :
    lget (infoStep p) k = lget p k := by
  unfold infoStep
  split
  · split
    · exact lget_lset_ne _ _ _ _ (Ne.symm h)
    · rfl
  · rfl

theorem lget_maxlagStep_ne (cfg : SiteConfig) (p : ParamsL) (k : String)
    (h : k ≠ "maxlag") : lget (maxlagStep cfg p) k = lget p k := by
  unfold maxlagStep
  by_cases hc : (!(lmem p "maxlag") && (cfg.maxlag != 0)) = true
  · rw [if_pos hc, lget_lset_ne _ _ _ _ (Ne.symm h)]
  · rw [if_neg hc]

theorem lget_formatStep_ne (p : ParamsL) (k : String) (h : k ≠ "format") :
    lget (formatStep p) k = lget p k := by
  unfold formatStep
  by_cases hc : (!(lmem p "format")) = true
  · rw [if_pos hc, lget_lset_ne _ _ _ _ (Ne.symm h)]
  · rw [if_neg hc]

/-! Fixed points of the injection steps on already-injected dicts. -/

theorem metaStep_userinfo (p : ParamsL) :
    ∃ m, lget (metaStep p) "meta" = some m ∧ "userinfo" ∈ m := by
  unfold metaStep
  by_cases hui : "userinfo" ∈ (lget p "meta").getD []
  · rw [if_pos hui]
    cases hm : lget p "meta" with
    | none => rw [hm] at hui; simp at hui
    | some m => rw [hm] at hui; exact ⟨m, hm ▸ rfl, hui⟩
  · rw [if_neg hui]
    exact ⟨_, lget_lset_self _ _ _, by simp⟩

theorem metaStep_fix (p : ParamsL) (m : List String)
    (h : lget p "meta" = some m) (hm : "userinfo" ∈ m) : metaStep p = p := by
  unfold metaStep
  rw [h]
  simp [hm]

theorem uipropStep_val (p : ParamsL) :
    lget (uipropStep p) "uiprop" =
      some (pySortedSet ((lget p "uiprop").getD [] ++ ["blockinfo", "hasmsg"])) :=
  lget_lset_self _ _ _

theorem uipropStep_fix (p : ParamsL) (u : List String)
    (h : lget p "uiprop" = some u) (hs : u.Sorted pyLe)
    (hn : u.Nodup) (hb : "blockinfo" ∈ u) (hh : "hasmsg" ∈ u) :
    uipropStep p = p := by
  unfold uipropStep
  rw [h]
  have : pySortedSet (u ++ ["blockinfo", "hasmsg"]) = u := by
    apply pySortedSet_append_mem u _ hs hn
    intro x hx
    rcases List.mem_cons.mp hx with h' | h'
    · rw [h']; exact hb
    · rw [List.mem_singleton.mp h']; exact hh
  rw [Option.getD_some, this]
  exact lset_lget_id p "uiprop" u h

theorem infoStep_fix (p : ParamsL)
    (h : ∀ props, lget p "properties" = some props → "info" ∈ props →
      lget p "info" = some (pySetList ((lget p "inprop").getD [] ++
        ["protection", "talkid", "subjectid"]))) :
    infoStep p = p := by
  unfold infoStep
  split
  · rename_i props hprops
    split
    · rename_i hi
      exact lset_lget_id _ _ _ (h props hprops hi)
    · rfl
  · rfl

theorem maxlagStep_fix (cfg : SiteConfig) (p : ParamsL)
    (h : lmem p "maxlag" = true ∨ cfg.maxlag = 0) : maxlagStep cfg p = p := by
  unfold maxlagStep
  rcases h with h | h
  · simp [h]
  · simp [h]

theorem formatStep_fix (p : ParamsL) (h : lmem p "format" = true) :
    formatStep p = p := by
  unfold formatStep
  simp [h]

/-! Wire safety is preserved by every injection step. -/

theorem goodL_metaStep (p : ParamsL) (hp : goodL p) : goodL (metaStep p) := by
  unfold metaStep
  by_cases hui : "userinfo" ∈ (lget p "meta").getD []
  · rw [if_pos hui]; exact hp
  · rw [if_neg hui]
    apply goodL_lset p _ _ hp
    constructor
    · simp
    · intro s hs
      rcases List.mem_append.mp hs with h | h
      · cases hm : lget p "meta" with
        | none => rw [hm] at h; simp at h
        | some m =>
          rw [hm] at h
          exact (goodL_lget p "meta" m hp hm).2 s h
      · rw [List.mem_singleton.mp h]; decide

theorem goodL_uipropStep (p : ParamsL) (hp : goodL p) : goodL (uipropStep p) := by
  unfold uipropStep
  apply goodL_lset p _ _ hp
  constructor
  · intro hnil
    have : "blockinfo" ∈ pySortedSet ((lget p "uiprop").getD [] ++ ["blockinfo", "hasmsg"]) := by
      rw [pySortedSet_mem]
      simp
    rw [hnil] at this
    simp at this
  · intro s hs
    rw [pySortedSet_mem] at hs
    rcases List.mem_append.mp hs with h | h
    · cases hu : lget p "uiprop" with
      | none => rw [hu] at h; simp at h
      | some u =>
        rw [hu] at h
        exact (goodL_lget p "uiprop" u hp hu).2 s h
    · rcases List.mem_cons.mp h with h' | h'
      · rw [h']; decide
      · rw [List.mem_singleton.mp h']; decide

theorem goodL_infoStep (p : ParamsL) (hp : goodL p) : goodL (infoStep p) := by
  unfold infoStep
  split
  · split
    · apply goodL_lset p _ _ hp
      constructor
      · intro hnil
        have : "protection" ∈ pySetList ((lget p "inprop").getD [] ++
            ["protection", "talkid", "subjectid"]) := by
          unfold pySetList
          rw [List.mem_dedup]
          simp
        rw [hnil] at this
        simp at this
      · intro s hs
        unfold pySetList at hs
        rw [List.mem_dedup] at hs
        rcases List.mem_append.mp hs with h | h
        · cases hin : lget p "inprop" with
          | none => rw [hin] at h; simp at h
          | some ip =>
            rw [hin] at h
            exact (goodL_lget p "inprop" ip hp hin).2 s h
        · rcases List.mem_cons.mp h with h' | h'
          · rw [h']; decide
          · rcases List.mem_cons.mp h' with h'' | h''
            · rw [h'']; decide
            · rw [List.mem_singleton.mp h'']; decide
    · exact hp
  · exact hp

theorem goodL_actionStep (p : ParamsL) (a : List String) (hp : goodL p) :
    goodL (actionStep p a) := by
  unfold actionStep queryInject
  by_cases ha : a = ["query"]
  · rw [if_pos ha]
    exact goodL_infoStep _ (goodL_uipropStep _ (goodL_metaStep _ hp))
  · rw [if_neg ha]; exact hp

theorem goodL_maxlagStep (cfg : SiteConfig) (p : ParamsL) (hp : goodL p) :
    goodL (maxlagStep cfg p) := by
  unfold maxlagStep
  by_cases hc : (!(lmem p "maxlag") && (cfg.maxlag != 0)) = true
  · rw [if_pos hc]
    apply goodL_lset p _ _ hp
    exact ⟨by simp, by
      intro s hs
      rw [List.mem_singleton.mp hs]
      exact natToStr_pipeFree cfg.maxlag⟩
  · rw [if_neg hc]; exact hp

theorem goodL_formatStep (p : ParamsL) (hp : goodL p) : goodL (formatStep p) := by
  unfold formatStep
  by_cases hc : (!(lmem p "format")) = true
  · rw [if_pos hc]
    apply goodL_lset p _ _ hp
    exact ⟨by simp, by intro s hs; rw [List.mem_singleton.mp hs]; decide⟩
  · rw [if_neg hc]; exact hp

theorem lmem_formatStep_ne (p : ParamsL) (k : String) (h : k ≠ "format") :
    lmem (formatStep p) k = lmem p k := by
  simp [lmem, lget_formatStep_ne p k h]

/-- Wire safety survives a whole successful `normSteps` run. -/
theorem normSteps_good (cfg : SiteConfig) (p1 p4 : ParamsL)
    (h : normSteps cfg p1 = Except.ok p4) (hg : goodL p1) : goodL p4 := by
  unfold normSteps at h
  cases ha : lget p1 "action" with
  | none => rw [ha] at h; cases h
  | some a =>
    rw [ha] at h
    have h2 : (if lget (formatStep (maxlagStep cfg (actionStep p1 a))) "format"
          ≠ some ["json"]
        then (Except.error NormErr.typeError : Except NormErr ParamsL)
        else Except.ok (formatStep (maxlagStep cfg (actionStep p1 a)))) =
          Except.ok p4 := h
    by_cases hchk : lget (formatStep (maxlagStep cfg (actionStep p1 a))) "format"
        ≠ some ["json"]
    · rw [if_pos hchk] at h2; cases h2
    · rw [if_neg hchk] at h2
      injection h2 with h4
      rw [← h4]
      exact goodL_formatStep _ (goodL_maxlagStep cfg _ (goodL_actionStep _ _ hg))

/-- A second `normSteps` run on the output of a successful first run
returns the output unchanged: every injection already happened. -/
theorem normSteps_fix (cfg : SiteConfig) (p1 p4 : ParamsL)
    (h : normSteps cfg p1 = Except.ok p4) : normSteps cfg p4 = Except.ok p4 := by
  unfold normSteps at h ⊢
  cases ha : lget p1 "action" with
  | none => rw [ha] at h; cases h
  | some a =>
    rw [ha] at h
    have h2 : (if lget (formatStep (maxlagStep cfg (actionStep p1 a))) "format"
          ≠ some ["json"]
        then (Except.error NormErr.typeError : Except NormErr ParamsL)
        else Except.ok (formatStep (maxlagStep cfg (actionStep p1 a)))) =
          Except.ok p4 := h
    by_cases hchk : lget (formatStep (maxlagStep cfg (actionStep p1 a))) "format"
        ≠ some ["json"]
    · rw [if_pos hchk] at h2; cases h2
    · rw [if_neg hchk] at h2
      injection h2 with h4
      push_neg at hchk
      rw [h4] at hchk
      have haction : lget p4 "action" = some a := by
        rw [← h4, lget_formatStep_ne _ _ (by decide),
          lget_maxlagStep_ne _ _ _ (by decide)]
        unfold actionStep
        by_cases hq : a = ["query"]
        · rw [if_pos hq]
          unfold queryInject
          rw [lget_infoStep_ne _ _ (by decide), lget_uipropStep_ne _ _ (by decide),
            lget_metaStep_ne _ _ (by decide), ha]
        · rw [if_neg hq, ha]
      have hfixa : actionStep p4 a = p4 := by
        unfold actionStep
        by_cases hq : a = ["query"]
        · rw [if_pos hq]
          have hchain : ∀ k : String, k ≠ "format" → k ≠ "maxlag" →
              lget p4 k = lget (actionStep p1 a) k := by
            intro k h1 h2
            rw [← h4, lget_formatStep_ne _ _ h1, lget_maxlagStep_ne _ _ _ h2]
          have hact : actionStep p1 a =
              infoStep (uipropStep (metaStep p1)) := by
            unfold actionStep queryInject
            rw [if_pos hq]
          obtain ⟨m, hm, hui⟩ := metaStep_userinfo p1
          have hm4 : lget p4 "meta" = some m := by
            rw [hchain "meta" (by decide) (by decide), hact,
              lget_infoStep_ne _ _ (by decide), lget_uipropStep_ne _ _ (by decide)]
            exact hm
          have hu4 : lget p4 "uiprop" =
              some (pySortedSet ((lget (metaStep p1) "uiprop").getD [] ++
                ["blockinfo", "hasmsg"])) := by
            rw [hchain "uiprop" (by decide) (by decide), hact,
              lget_infoStep_ne _ _ (by decide)]
            exact uipropStep_val (metaStep p1)
          have hinfo4 : ∀ props, lget p4 "properties" = some props →
              "info" ∈ props → lget p4 "info" =
                some (pySetList ((lget p4 "inprop").getD [] ++
                  ["protection", "talkid", "subjectid"])) := by
            intro props hprops hin
            have hpr2 : lget (uipropStep (metaStep p1)) "properties" = some props := by
              rw [← lget_infoStep_ne (uipropStep (metaStep p1)) "properties" (by decide),
                ← hact, ← hchain "properties" (by decide) (by decide)]
              exact hprops
            have hip : lget p4 "inprop" =
                lget (uipropStep (metaStep p1)) "inprop" := by
              rw [hchain "inprop" (by decide) (by decide), hact,
                lget_infoStep_ne _ _ (by decide)]
            have hstep : infoStep (uipropStep (metaStep p1)) =
                lset (uipropStep (metaStep p1)) "info"
                  (pySetList ((lget (uipropStep (metaStep p1)) "inprop").getD [] ++
                    ["protection", "talkid", "subjectid"])) := by
              unfold infoStep
              rw [hpr2]
              simp [hin]
            rw [hchain "info" (by decide) (by decide), hact, hstep,
              lget_lset_self, hip]
          unfold queryInject
          rw [metaStep_fix p4 m hm4 hui,
            uipropStep_fix p4 _ hu4 (pySortedSet_sorted _) (pySortedSet_nodup _)
              (by rw [pySortedSet_mem]; simp) (by rw [pySortedSet_mem]; simp)]
          exact infoStep_fix p4 hinfo4
        · rw [if_neg hq]
      have hmax : maxlagStep cfg p4 = p4 := by
        apply maxlagStep_fix
        by_cases hml : cfg.maxlag = 0
        · exact Or.inr hml
        · left
          rw [← h4, lmem_formatStep_ne _ _ (by decide)]
          unfold maxlagStep
          by_cases hc : (!(lmem (actionStep p1 a) "maxlag") && (cfg.maxlag != 0)) = true
          · rw [if_pos hc]
            exact lmem_lset_self _ _ _
          · rw [if_neg hc]
            rcases Bool.eq_false_or_eq_true (lmem (actionStep p1 a) "maxlag") with ht | hf
            · exact ht
            · exact absurd (by simp [hf, hml]) hc
      have hfmt : formatStep p4 = p4 := by
        apply formatStep_fix
        simp [lmem, hchk]
      rw [haction]
      show (if lget (formatStep (maxlagStep cfg (actionStep p4 a))) "format"
          ≠ some ["json"] then Except.error NormErr.typeError
        else Except.ok (formatStep (maxlagStep cfg (actionStep p4 a)))) = Except.ok p4
      rw [hfixa, hmax, hfmt, if_neg (by simp [hchk])]

/-- Splitting the joined wire text of a wire-safe dict recovers the
dict: the second run's splitting loop undoes the first run's joins. -/
theorem splitPhase_joinEncode (cfg : SiteConfig) (p : ParamsL) (hg : goodL p) :
    splitPhase ((joinEncode cfg p).1) = p := by
  unfold splitPhase joinEncode
  simp only [List.map_map]
  conv_rhs => rw [← List.map_id p]
  apply List.map_congr_left
  intro kv hkv
  obtain ⟨k, l⟩ := kv
  have hgl := hg (k, l) hkv
  simp only [Function.comp_apply, id_eq]
  show (k, splitVal (PValue.str (pyJoin l))) = (k, l)
  rw [show splitVal (PValue.str (pyJoin l)) = pySplit (pyJoin l) from rfl,
    pySplit_pyJoin l hgl.1 hgl.2]

/-- C3 (amended): on every ParameterSet whose sequence values are
nonempty with pipe-free elements (the wire convention the docstring of
`http_params` demands) and whose request carries no mime-only
parameters, normalization is idempotent:
`normalize(normalize(p)) == normalize(p)`. -/
theorem claim_C3_normalize_idem_amended (cfg : SiteConfig) (p : Params)
    (hm : cfg.mimeKeys = []) (hw : wireSafe p) :
    (normalize cfg p).bind (normalize cfg) = normalize cfg p := by
  have hmime : ∀ q : Params,
      (q.map Prod.fst).filter (fun k => decide (k ∈ cfg.mimeKeys)) = [] := by
    intro q
    rw [hm]
    simp
  unfold normalize http_params
  rw [if_neg (by simp [hmime p])]
  cases hn : normSteps cfg (splitPhase p) with
  | error e => rfl
  | ok p4 =>
    have hg4 : goodL p4 := normSteps_good cfg _ p4 hn (splitPhase_good p hw)
    show ((Except.ok (joinEncode cfg p4)).map Prod.fst).bind (normalize cfg) =
      (Except.ok (joinEncode cfg p4)).map Prod.fst
    show normalize cfg (joinEncode cfg p4).1 = Except.ok (joinEncode cfg p4).1
    unfold normalize http_params
    rw [if_neg (by simp [hmime _]), splitPhase_joinEncode cfg p4 hg4,
      normSteps_fix cfg _ p4 hn]
    rfl

/-- Configuration used by the C3 and C6 concrete checks: default
`maxlag` 5, an always-succeeding encoder, no mime parameters. -/
def cfgC3 : SiteConfig := ⟨5, fun _ => true, []⟩

/-- ParameterSet falsifying unconditional idempotence: the caller
supplies `uiprop` as a sequence whose single element contains a pipe. -/
def pC3 : Params :=
  [("action", PValue.str "query"), ("uiprop", PValue.list ["b|a"])]

/-- Counterexample to C3 as stated: for `pC3` the first run joins
`uiprop` to `"blockinfo|b|a|hasmsg"`, which the second run re-splits
and re-sorts to `"a|b|blockinfo|hasmsg"`, so
`normalize(normalize(p)) ≠ normalize(p)`. -/
theorem claim_C3_normalize_idem_cex :
    (normalize cfgC3 pC3).bind (normalize cfgC3) ≠ normalize cfgC3 pC3 := by
  decide

/-- Witness for C3 (amended) at a pipe-free ParameterSet. -/
theorem claim_C3_normalize_idem_witness :
    (normalize cfgC3 [("action", PValue.str "query"),
        ("titles", PValue.str "Foo bar")]).bind (normalize cfgC3) =
      normalize cfgC3 [("action", PValue.str "query"),
        ("titles", PValue.str "Foo bar")] :=
  claim_C3_normalize_idem_amended cfgC3 _ rfl (by decide)

/-- Site configuration whose encoder rejects the text `x`. -/
def cfgC6 : SiteConfig := ⟨0, fun s => decide (s ≠ "x"), []⟩

/-- ParameterSet carrying a value the site encoding cannot encode. -/
def pC6 : Params := [("action", PValue.str "go"), ("foo", PValue.str "x")]

/-- Counterexample to C6 as stated: the parameter `foo` of `pC6` cannot
be transport-encoded, yet `http_params` returns successfully (the
failure is only logged), so no construction error reaches the caller. -/
theorem claim_C6_encode_cex :
    (∃ kv ∈ splitPhase pC6, cfgC6.encodable (pyJoin kv.2) = false) ∧
    http_params cfgC6 pC6 = Except.ok
      ([("action", PValue.str "go"), ("foo", PValue.str "x"),
        ("format", PValue.str "json")], ["foo"]) := by
  constructor
  · exact ⟨("foo", ["x"]), by decide, by decide⟩
  · rfl

/-- C6 (amended): a value that cannot be transport-encoded does not
raise: whenever the construction checks pass, `http_params` succeeds,
and every key whose joined value fails to encode is reported on the
error log (`pywikibot.error`) rather than raised. -/
theorem claim_C6_encode_logged_amended (cfg : SiteConfig) (p : Params)
    (p4 : ParamsL)
    (hmime : (p.map Prod.fst).filter (fun k => decide (k ∈ cfg.mimeKeys)) = [])
    (hsteps : normSteps cfg (splitPhase p) = Except.ok p4) :
    ∃ q log, http_params cfg p = Except.ok (q, log) ∧
      ∀ k l, (k, l) ∈ p4 → cfg.encodable (pyJoin l) = false → k ∈ log := by
  unfold http_params
  rw [if_neg (by simp [hmime]), hsteps]
  refine ⟨(joinEncode cfg p4).1, (joinEncode cfg p4).2, rfl, ?_⟩
  intro k l hkl henc
  unfold joinEncode
  simp only [List.mem_map]
  exact ⟨(k, l), List.mem_filter.mpr ⟨hkl, by simp [henc]⟩, rfl⟩

/-- Witness for C6 (amended) at the concrete unencodable request. -/
theorem claim_C6_encode_logged_witness :
    ∃ q log, http_params cfgC6 pC6 = Except.ok (q, log) ∧
      ∀ k l, (k, l) ∈ [("action", ["go"]), ("foo", ["x"]), ("format", ["json"])] →
        cfgC6.encodable (pyJoin l) = false → k ∈ log :=
  claim_C6_encode_logged_amended cfgC6 pC6
    [("action", ["go"]), ("foo", ["x"]), ("format", ["json"])]
    (by decide) (by decide)

/-! ## QueryGenerator, the continuation driver (api.py lines 707-993)

Responses parsed from JSON are embedded as `JVal`.  The HTTP collaborator
(`Request.submit` as driven by the generator) is abstracted as a function
from the submission index and the current request parameters to the
parsed response.  The generator's `__iter__` loop is modelled with fuel;
every claim supplies enough fuel for the run to finish.
-/

/-- Parsed JSON value. -/
inductive JVal where
  | str (s : String)
  | num (n : Int)
  | arr (l : List JVal)
  | obj (m : List (String × JVal))
deriving Repr

/-- Lookup of a key in a JSON object (`d[k]` / `k in d`); non-objects
hold no keys. -/
def jGet (j : JVal) (k : String) : Option JVal :=
  match j with
  | JVal.obj m => lget m k
  | _ => none

/-- Python `k in d` for response objects. -/
def jHasKey (j : JVal) (k : String) : Bool :=
  (jGet j k).isSome

/-- Python truthiness of a parsed JSON value. -/
def jTruthy : JVal → Bool
  | JVal.str s => !(s == "")
  | JVal.num n => !(n == 0)
  | JVal.arr l => !l.isEmpty
  | JVal.obj m => !m.isEmpty

/-- Whether the value is a JSON object (`isinstance(x, dict)`). -/
def jIsObj : JVal → Bool
  | JVal.obj _ => true
  | _ => false

/-- Python `len()` of a response value.  (`len` of a number raises in
Python; the model returns 0 for it.) -/
def jLen : JVal → Nat
  | JVal.arr l => l.length
  | JVal.obj m => m.length
  | JVal.str s => s.data.length
  | JVal.num _ => 0

/-- Python iteration over a response value: lists yield elements, dicts
yield their keys, strings yield their characters.  (Iterating a number
raises in Python; the model yields nothing.) -/
def jItems : JVal → List JVal
  | JVal.arr l => l
  | JVal.obj m => m.map (fun kv => JVal.str kv.1)
  | JVal.str s => s.data.map (fun c => JVal.str ⟨[c]⟩)
  | JVal.num _ => []

/-- Text of a value used as a dict key or continuation token
(non-scalar tokens are assigned raw in Python and are not modelled). -/
def jAsKey : JVal → String
  | JVal.str s => s
  | JVal.num n => intToStr n
  | _ => ""

/-- Python `sorted(keys)` without deduplication. -/
def pySorted (l : List String) : List String :=
  List.insertionSort pyLe l

/-- Substring containment, Python `sub in s` on strings. -/
def strContains (needle hay : List Char) : Bool :=
  isPrefOf needle hay ||
    match hay with
    | [] => false
    | _ :: rest => strContains needle rest
where
  /-- Prefix test on character lists. -/
  isPrefOf : List Char → List Char → Bool
    | [], _ => true
    | _ :: _, [] => false
    | a :: as, b :: bs => a == b && isPrefOf as bs

/-- The content-retrieval test of api.py lines 897-899:
`"rvprop" in self.request and "content" in self.request["rvprop"]`. -/
def hasContentQuery (req : List (String × String)) : Bool :=
  match lget req "rvprop" with
  | some v => strContains "content".data v.data
  | none => false

/-- Mutable state of a `QueryGenerator` (the fields its `__iter__`
reads or writes, with the paraminfo-derived `prefix` and `api_limit`
already resolved). -/
structure QGState where
  request : List (String × String)
  module : String
  pfx : String
  resultkey : String
  continuekey : List String
  limit : Option Int
  query_limit : Option Int
  api_limit : Option Int
  normalized : List (String × String)
deriving Repr, DecidableEq

/-- Truthiness of `self.limit` (an optional int). -/
def limTruthy : Option Int → Bool
  | none => false
  | some l => !(l == 0)

/-- Page-size computation at the top of each round (api.py lines
889-906): request `min(query_limit, limit - count)` under a positive
limit, the full `query_limit` when no limit is set, and nothing at all
under a non-positive limit; content-bearing queries are capped further.
(`api_limit // 10` with `api_limit is None` raises in Python and is not
modelled.) -/
def newLimit0 (st : QGState) (count : Int) (ql : Int) : Option Int :=
  match st.limit with
  | none => some ql
  | some l => if l > 0 then some (min ql (l - count)) else none

def newLimit1 (st : QGState) (nl0 : Option Int) : Option Int :=
  match nl0 with
  | some v =>
    if !(v == 0) && hasContentQuery st.request then
      some (min (min v (match st.api_limit with
        | some al => Int.fdiv al 10
        | none => v)) 250)
    else nl0
  | none => none

def limitReq (st : QGState) (count : Int) : List (String × String) :=
  match st.query_limit with
  | none => st.request
  | some ql =>
    match newLimit1 st (newLimit0 st count ql) with
    | some v => lset st.request (st.pfx ++ "limit") (intToStr v)
    | none => st.request

/-- State after the page-size computation: only the request changes. -/
def limitUpdate (st : QGState) (count : Int) : QGState :=
  { st with request := limitReq st count }

/-- Count increment for one yielded item (api.py lines 954-963): a dict
item carrying one of the continue keys counts the sizes of those nested
collections, anything else counts one. -/
def countInc (ck : List String) (item : JVal) : Int :=
  match item with
  | JVal.obj m =>
    let inter := ck.dedup.filter (fun k => lmem m k)
    if inter.isEmpty then 1
    else (inter.map (fun k => ((jLen ((lget m k).getD (JVal.num 0))) : Int))).sum
  | _ => 1

/-- Outcome of the item loop of one round: the yielded items, the final
count, and whether the generator returned mid-loop. -/
structure LoopOut where
  ys : List JVal
  count : Int
  stopped : Bool
deriving Repr

/-- The item loop of one round (api.py lines 952-966): yield each item,
update the count, and stop immediately after the item that reaches a
positive client limit. -/
def yieldLoop (ck : List String) (lim : Option Int) :
    List JVal → Int → LoopOut
  | [], count => ⟨[], count, false⟩
  | item :: rest, count =>
    let count' := count + countInc ck item
    let stop :=
      match lim with
      | some l => !(l == 0) && l > 0 && count' ≥ l
      | none => false
    if stop then ⟨[item], count', true⟩
    else
      let r := yieldLoop ck lim rest count'
      ⟨item :: r.ys, r.count, r.stopped⟩

/-- Continuation pairs extracted from a `query-continue` section
(api.py lines 981-987): every key/value pair of every token group, with
integer values stringified.  (A non-dict group raises in Python and is
not modelled.) -/
def contPairs (qc : JVal) : List (String × String) :=
  match qc with
  | JVal.obj groups =>
    (groups.map (fun g =>
      match g.2 with
      | JVal.obj pairs => pairs.map (fun kv => (kv.1, jAsKey kv.2))
      | _ => [])).flatten
  | _ => []

/-- Merging the continuation tokens into the request parameters. -/
def contCopy (req : List (String × String)) (qc : JVal) :
    List (String × String) :=
  (contPairs qc).foldl (fun r kv => lset r kv.1 kv.2) req

/-- Outcome of processing one received response: the generator either
returns (keeping `self.data`) or loops for another round (keeping the
data only in the `random`-module case, deleting it otherwise). -/
inductive StepOut where
  | stop (ys : List JVal) (st : QGState) (d : JVal)
  | loop (ys : List JVal) (st : QGState) (d : Option JVal) (count : Int)

/-- Extraction and ordering of the round's result collection (api.py
lines 922-939): a mapping-shaped collection prefers its `results`
sub-key, then the server-supplied `pageids` ordering, then its sorted
keys.  (A page id absent from the mapping raises `KeyError` in Python;
the model substitutes an empty object.) -/
def orderItems (q : JVal) (rd0 : JVal) : List JVal :=
  match rd0 with
  | JVal.obj m =>
    if lmem m "results" then jItems ((lget m "results").getD (JVal.arr []))
    else
      match jGet q "pageids" with
      | some pids =>
        (jItems pids).map (fun pk => (lget m (jAsKey pk)).getD (JVal.obj []))
      | none =>
        (pySorted (m.map Prod.fst)).map
          (fun k => (lget m k).getD (JVal.obj []))
  | _ => jItems rd0

/-- Update of `self.normalized` from the response (api.py lines
946-951). -/
def normUpdate (st1 : QGState) (q : JVal) : QGState :=
  { st1 with normalized :=
    (match jGet q "normalized" with
     | some nv =>
       (jItems nv).map (fun it =>
         (jAsKey ((jGet it "to").getD (JVal.str "")),
          jAsKey ((jGet it "from").getD (JVal.str ""))))
     | none => []) }

/-- Steps 4-7 after the item loop ran (api.py lines 965-989): return on
a reached limit, loop for a fresh batch for `random` queries, return
when no usable continuation section exists, otherwise merge the tokens
and loop. -/
def qgTail (st2 : QGState) (d : JVal) (yl : LoopOut) : StepOut :=
  if yl.stopped then StepOut.stop yl.ys st2 d
  else if st2.module == "random" && limTruthy st2.limit then
    StepOut.loop yl.ys st2 (some d) yl.count
  else
    match jGet d "query-continue" with
    | none => StepOut.stop yl.ys st2 d
    | some qc =>
      if st2.continuekey.all (fun k => !(jHasKey qc k)) then
        StepOut.stop yl.ys st2 d
      else
        StepOut.loop yl.ys
          { st2 with request := contCopy st2.request qc } none yl.count

/-- Steps 3-7 of one round of `QueryGenerator.__iter__` (api.py lines
909-989), after `self.data` is available. -/
def qgProcess (st1 : QGState) (d : JVal) (count : Int) : StepOut :=
  if !(jTruthy d) || !(jIsObj d) then StepOut.stop [] st1 d
  else
    match jGet d "query" with
    | none => StepOut.stop [] st1 d
    | some q =>
      match jGet q st1.resultkey with
      | none => StepOut.stop [] st1 d
      | some rd0 =>
        qgTail (normUpdate st1 q) d
          (yieldLoop (normUpdate st1 q).continuekey (normUpdate st1 q).limit
            (orderItems q rd0) count)

/-- Result of (a fuel-bounded run of) `QueryGenerator.__iter__`: the
yielded items, the trace of issued requests, the final state, the
retained `self.data`, and whether the loop returned before the fuel ran
out. -/
structure RunResult where
  yields : List JVal
  trace : List (List (String × String))
  st : QGState
  data : Option JVal
  finished : Bool

/-- The `while True` loop of `QueryGenerator.__iter__`: compute the
page-size parameter, submit unless a response is already held (the
`hasattr(self, "data")` test), process it, and either return or loop. -/
def qgRun (sv : Nat → List (String × String) → JVal) :
    Nat → QGState → Option JVal → Int → Nat → RunResult
  | 0, st, data, _, _ => ⟨[], [], st, data, false⟩
  | fuel + 1, st, none, count, ridx =>
    match qgProcess (limitUpdate st count)
        (sv ridx (limitUpdate st count).request) count with
    | StepOut.stop ys st2 dKeep =>
      ⟨ys, [(limitUpdate st count).request], st2, some dKeep, true⟩
    | StepOut.loop ys st2 data' count' =>
      let r := qgRun sv fuel st2 data' count' (ridx + 1)
      ⟨ys ++ r.yields, (limitUpdate st count).request :: r.trace,
        r.st, r.data, r.finished⟩
  | fuel + 1, st, some d0, count, ridx =>
    match qgProcess (limitUpdate st count) d0 count with
    | StepOut.stop ys st2 dKeep => ⟨ys, [], st2, some dKeep, true⟩
    | StepOut.loop ys st2 data' count' =>
      let r := qgRun sv fuel st2 data' count' ridx
      ⟨ys ++ r.yields, r.trace, r.st, r.data, r.finished⟩

/-- A fresh iteration of the generator. -/
def qgIter (sv : Nat → List (String × String) → JVal) (st : QGState)
    (fuel : Nat) : RunResult :=
  qgRun sv fuel st none 0 0

/-- Errors raised by `QueryGenerator.__init__`. -/
inductive QGErr where
  | badAction
  | noModule
deriving DecidableEq, Repr

/-- `QueryGenerator.__init__` (api.py lines 725-773): the action must be
`query` (and is forced to `query`), a query-module keyword must be
present, and `indexpageids` is unconditionally added.  The
paraminfo-derived `api_limit` and limit-parameter prefix are abstracted
as the inputs `apiLimit` and `pfx0` (site collaborator). -/
def qgInitReq (kwargs : List (String × String)) : List (String × String) :=
  lset (lset kwargs "action" "query") "indexpageids" ""

def qg_init (kwargs : List (String × String)) (apiLimit : Option Int)
    (pfx0 : String) : Except QGErr QGState :=
  if (lmem kwargs "action" && !((lget kwargs "action").getD "" == "query")) then
    Except.error QGErr.badAction
  else
    match (["generator", "list", "prop", "meta"].find?
        (fun mt => lmem (lset kwargs "action" "query") mt)) with
    | none => Except.error QGErr.noModule
    | some mt =>
      Except.ok
        ⟨qgInitReq kwargs,
          (lget (lset kwargs "action" "query") mt).getD "",
          (if lmem (qgInitReq kwargs) "generator" && apiLimit.isSome
            then "g" ++ pfx0 else pfx0),
          (if lmem (qgInitReq kwargs) "generator" then "pages"
            else (lget (lset kwargs "action" "query") mt).getD ""),
          pySplit ((lget (lset kwargs "action" "query") mt).getD ""),
          none, apiLimit, apiLimit, []⟩

/-! ### Invariants of one processing step -/

/-- The keys a response's continuation section would merge into the
request. -/
def contKeys (d : JVal) : List String :=
  (contPairs ((jGet d "query-continue").getD (JVal.obj []))).map Prod.fst

theorem yieldLoop_no_limit (ck : List String) (l : List JVal) :
    ∀ c, yieldLoop ck none l c = ⟨l, c + (l.map (countInc ck)).sum, false⟩ := by
  induction l with
  | nil => intro c; simp [yieldLoop]
  | cons item rest ih =>
    intro c
    simp only [yieldLoop, ih, List.map_cons, List.sum_cons]
    simp [add_assoc]

theorem qgTail_stop_inv (st2 : QGState) (d : JVal) (yl : LoopOut)
    (ys : List JVal) (st' : QGState) (dk : JVal)
    (h : qgTail st2 d yl = StepOut.stop ys st' dk) : st' = st2 ∧ dk = d := by
  unfold qgTail at h
  split at h
  · cases h; exact ⟨rfl, rfl⟩
  · split at h
    · cases h
    · split at h
      · cases h; exact ⟨rfl, rfl⟩
      · split at h
        · cases h; exact ⟨rfl, rfl⟩
        · cases h

theorem qgTail_loop_inv (st2 : QGState) (d : JVal) (yl : LoopOut)
    (ys : List JVal) (st' : QGState) (data' : Option JVal) (count' : Int)
    (h : qgTail st2 d yl = StepOut.loop ys st' data' count') :
    (data' = some d ∧ st' = st2) ∨
      (data' = none ∧ ∃ qc, jGet d "query-continue" = some qc ∧
        st' = { st2 with request := contCopy st2.request qc }) := by
  unfold qgTail at h
  split at h
  · cases h
  · split at h
    · cases h; exact Or.inl ⟨rfl, rfl⟩
    · split at h
      · cases h
      · rename_i hqc
        split at h
        · cases h
        · cases h
          exact Or.inr ⟨rfl, _, hqc, rfl⟩

theorem qgProcess_stop_inv (st1 : QGState) (d : JVal) (count : Int)
    (ys : List JVal) (st2 : QGState) (dk : JVal)
    (h : qgProcess st1 d count = StepOut.stop ys st2 dk) :
    st2.request = st1.request ∧ st2.limit = st1.limit ∧ st2.pfx = st1.pfx ∧
      st2.resultkey = st1.resultkey ∧ st2.continuekey = st1.continuekey ∧
      st2.module = st1.module ∧ st2.query_limit = st1.query_limit ∧
      st2.api_limit = st1.api_limit ∧ dk = d := by
  unfold qgProcess at h
  split at h
  · cases h; exact ⟨rfl, rfl, rfl, rfl, rfl, rfl, rfl, rfl, rfl⟩
  · split at h
    · cases h; exact ⟨rfl, rfl, rfl, rfl, rfl, rfl, rfl, rfl, rfl⟩
    · split at h
      · cases h; exact ⟨rfl, rfl, rfl, rfl, rfl, rfl, rfl, rfl, rfl⟩
      · obtain ⟨hst, hdk⟩ := qgTail_stop_inv _ _ _ _ _ _ h
        subst hst
        exact ⟨rfl, rfl, rfl, rfl, rfl, rfl, rfl, rfl, hdk⟩

theorem qgProcess_loop_inv (st1 : QGState) (d : JVal) (count : Int)
    (ys : List JVal) (st2 : QGState) (data' : Option JVal) (count' : Int)
    (h : qgProcess st1 d count = StepOut.loop ys st2 data' count') :
    st2.limit = st1.limit ∧ st2.pfx = st1.pfx ∧
      st2.resultkey = st1.resultkey ∧ st2.continuekey = st1.continuekey ∧
      st2.module = st1.module ∧ st2.query_limit = st1.query_limit ∧
      st2.api_limit = st1.api_limit ∧
      ((data' = some d ∧ st2.request = st1.request) ∨
        (data' = none ∧ ∃ qc, jGet d "query-continue" = some qc ∧
          st2.request = contCopy st1.request qc)) := by
  unfold qgProcess at h
  split at h
  · cases h
  · split at h
    · cases h
    · split at h
      · cases h
      · rcases qgTail_loop_inv _ _ _ _ _ _ _ h with ⟨hd, hst⟩ | ⟨hd, qc, hqc, hst⟩
        · subst hst
          exact ⟨rfl, rfl, rfl, rfl, rfl, rfl, rfl, Or.inl ⟨hd, rfl⟩⟩
        · subst hst
          exact ⟨rfl, rfl, rfl, rfl, rfl, rfl, rfl, Or.inr ⟨hd, qc, hqc, rfl⟩⟩

theorem lmem_lset_mono {α : Type} (p : List (String × α)) (k k' : String)
    (v : α) (h : lmem p k = true) : lmem (lset p k' v) k = true := by
  by_cases hk : k' = k
  · subst hk; exact lmem_lset_self p k' v
  · rw [lmem_lset_ne p k' k v hk]; exact h

theorem lmem_foldl_lset_mono (ps : List (String × String)) :
    ∀ (req : List (String × String)) (k : String), lmem req k = true →
    lmem (ps.foldl (fun r kv => lset r kv.1 kv.2) req) k = true := by
  induction ps with
  | nil => intro req k h; exact h
  | cons kv rest ih =>
    intro req k h
    exact ih (lset req kv.1 kv.2) k (lmem_lset_mono req k kv.1 kv.2 h)

theorem lmem_contCopy_mono (req : List (String × String)) (qc : JVal)
    (k : String) (h : lmem req k = true) :
    lmem (contCopy req qc) k = true :=
  lmem_foldl_lset_mono (contPairs qc) req k h

theorem lmem_limitReq_mono (st : QGState) (c : Int) (k : String)
    (h : lmem st.request k = true) : lmem (limitReq st c) k = true := by
  unfold limitReq
  split
  · exact h
  · split
    · exact lmem_lset_mono _ _ _ _ h
    · exact h

theorem limitReq_nonpos (st : QGState) (c : Int) (l : Int)
    (hl : st.limit = some l) (hneg : ¬ l > 0) : limitReq st c = st.request := by
  unfold limitReq
  split
  · rfl
  · rename_i ql _
    have h0 : newLimit0 st c ql = none := by
      unfold newLimit0
      rw [hl]
      simp [hneg]
    rw [h0]
    rfl

/-- Any key present in the request stays present in every issued
request and in the final request: the loop only adds or overwrites
parameters, never deletes them. -/
theorem qgRun_key_persists (sv : Nat → List (String × String) → JVal)
    (k : String) (fuel : Nat) :
    ∀ (st : QGState) (data : Option JVal) (count : Int) (ridx : Nat),
    lmem st.request k = true →
    (∀ req ∈ (qgRun sv fuel st data count ridx).trace, lmem req k = true) ∧
      lmem (qgRun sv fuel st data count ridx).st.request k = true := by
  induction fuel with
  | zero =>
    intro st data count ridx h
    exact ⟨by intro req hreq; simp [qgRun] at hreq, h⟩
  | succ fuel ih =>
    intro st data count ridx h
    have h1 : lmem (limitUpdate st count).request k = true :=
      lmem_limitReq_mono st count k h
    cases data with
    | none =>
      cases hproc : qgProcess (limitUpdate st count)
          (sv ridx (limitUpdate st count).request) count with
      | stop ys st2 dk =>
        obtain ⟨hreq, _⟩ := qgProcess_stop_inv _ _ _ _ _ _ hproc
        simp only [qgRun, hproc]
        refine ⟨?_, by rw [hreq]; exact h1⟩
        intro req hreq'
        rcases List.mem_singleton.mp hreq' with rfl
        exact h1
      | loop ys st2 data' count' =>
        obtain ⟨_, _, _, _, _, _, _, hor⟩ :=
          qgProcess_loop_inv _ _ _ _ _ _ _ hproc
        have h2 : lmem st2.request k = true := by
          rcases hor with ⟨_, hreq⟩ | ⟨_, qc, _, hreq⟩
          · rw [hreq]; exact h1
          · rw [hreq]; exact lmem_contCopy_mono _ qc k h1
        obtain ⟨htr, hst⟩ := ih st2 data' count' (ridx + 1) h2
        simp only [qgRun, hproc]
        refine ⟨?_, hst⟩
        intro req hreq'
        rcases List.mem_cons.mp hreq' with rfl | hmem
        · exact h1
        · exact htr req hmem
    | some d0 =>
      cases hproc : qgProcess (limitUpdate st count) d0 count with
      | stop ys st2 dk =>
        obtain ⟨hreq, _⟩ := qgProcess_stop_inv _ _ _ _ _ _ hproc
        simp only [qgRun, hproc]
        refine ⟨?_, by rw [hreq]; exact h1⟩
        intro req hreq'
        simp at hreq'
      | loop ys st2 data' count' =>
        obtain ⟨_, _, _, _, _, _, _, hor⟩ :=
          qgProcess_loop_inv _ _ _ _ _ _ _ hproc
        have h2 : lmem st2.request k = true := by
          rcases hor with ⟨_, hreq⟩ | ⟨_, qc, _, hreq⟩
          · rw [hreq]; exact h1
          · rw [hreq]; exact lmem_contCopy_mono _ qc k h1
        obtain ⟨htr, hst⟩ := ih st2 data' count' ridx h2
        simp only [qgRun, hproc]
        exact ⟨htr, hst⟩

theorem lmem_foldl_lset_none (ps : List (String × String)) :
    ∀ (req : List (String × String)) (k : String), lmem req k = false →
    (∀ kv ∈ ps, kv.1 ≠ k) →
    lmem (ps.foldl (fun r kv => lset r kv.1 kv.2) req) k = false := by
  induction ps with
  | nil => intro req k h _; exact h
  | cons kv rest ih =>
    intro req k h hk
    apply ih (lset req kv.1 kv.2) k
    · rw [lmem_lset_ne req kv.1 k kv.2 (hk kv (List.mem_cons_self _ _))]
      exact h
    · intro kv' hkv'
      exact hk kv' (List.mem_cons_of_mem _ hkv')

theorem lmem_contCopy_none (req : List (String × String)) (qc : JVal)
    (K : String) (h : lmem req K = false)
    (hk : K ∉ (contPairs qc).map Prod.fst) :
    lmem (contCopy req qc) K = false := by
  apply lmem_foldl_lset_none (contPairs qc) req K h
  intro kv hkv hkeq
  exact hk (List.mem_map.mpr ⟨kv, hkv, hkeq⟩)

/-! ### C10: QueryGenerator construction invariants -/

/-- C10: `QueryGenerator.__init__` raises when any action other than
`query` is supplied, forces the action to `query`, and unconditionally
adds the `indexpageids` parameter, which then remains in the request of
every round-trip the generator issues. -/
theorem claim_C10_init_invariant (kwargs : List (String × String))
    (apiLimit : Option Int) (pfx0 : String) :
    (∀ v, lget kwargs "action" = some v → v ≠ "query" →
      qg_init kwargs apiLimit pfx0 = Except.error QGErr.badAction) ∧
    (∀ st, qg_init kwargs apiLimit pfx0 = Except.ok st →
      lget st.request "action" = some "query" ∧
      lget st.request "indexpageids" = some "" ∧
      ∀ sv fuel, ∀ req ∈ (qgIter sv st fuel).trace,
        lmem req "indexpageids" = true) := by
  constructor
  · intro v hv hne
    have hc : (lmem kwargs "action" &&
        !((lget kwargs "action").getD "" == "query")) = true := by
      simp [lmem, hv, hne]
    unfold qg_init
    rw [if_pos hc]
  · intro st hst
    unfold qg_init at hst
    by_cases hc : (lmem kwargs "action" &&
        !((lget kwargs "action").getD "" == "query")) = true
    · rw [if_pos hc] at hst; cases hst
    · rw [if_neg hc] at hst
      cases hfind : (["generator", "list", "prop", "meta"].find?
          (fun mt => lmem (lset kwargs "action" "query") mt)) with
      | none => rw [hfind] at hst; cases hst
      | some mt =>
        rw [hfind] at hst
        have hst2 : Except.ok
            (⟨qgInitReq kwargs,
              (lget (lset kwargs "action" "query") mt).getD "",
              (if lmem (qgInitReq kwargs) "generator" && apiLimit.isSome
                then "g" ++ pfx0 else pfx0),
              (if lmem (qgInitReq kwargs) "generator" then "pages"
                else (lget (lset kwargs "action" "query") mt).getD ""),
              pySplit ((lget (lset kwargs "action" "query") mt).getD ""),
              none, apiLimit, apiLimit, []⟩ : QGState) = Except.ok st := hst
        injection hst2 with hst'
        have hreq : st.request =
            lset (lset kwargs "action" "query") "indexpageids" "" := by
          rw [← hst']
          rfl
        refine ⟨?_, ?_, ?_⟩
        · rw [hreq, lget_lset_ne _ _ _ _ (by decide), lget_lset_self]
        · rw [hreq, lget_lset_self]
        · intro sv fuel req hmreq
          have hmem : lmem st.request "indexpageids" = true := by
            rw [hreq]
            simp [lmem, lget_lset_self]
          exact (qgRun_key_persists sv "indexpageids" fuel st none 0 0 hmem).1
            req hmreq

/-- One-round server answering with a single page and no continuation
section. -/
def svPages : Nat → List (String × String) → JVal :=
  fun _ _ => JVal.obj [("query", JVal.obj [("pages", JVal.arr [JVal.str "p"])])]

/-- State produced by `qg_init` on a plain `list=allpages` query. -/
def stC10 : QGState :=
  ⟨[("list", "allpages"), ("action", "query"), ("indexpageids", "")],
    "allpages", "ap", "allpages", ["allpages"], none, some 500, some 500, []⟩

/-- Witness for C10: a non-query action is rejected, and a generator
built from a plain `list=allpages` query carries `indexpageids` into
every issued request. -/
theorem claim_C10_init_witness :
    qg_init [("action", "edit"), ("list", "allpages")] (some 500) "ap" =
      Except.error QGErr.badAction ∧
    (lget stC10.request "action" = some "query" ∧
      lget stC10.request "indexpageids" = some "" ∧
      ∀ sv fuel, ∀ req ∈ (qgIter sv stC10 fuel).trace,
        lmem req "indexpageids" = true) :=
  ⟨(claim_C10_init_invariant [("action", "edit"), ("list", "allpages")]
      (some 500) "ap").1 "edit" rfl (by decide),
    (claim_C10_init_invariant [("list", "allpages")] (some 500) "ap").2
      stC10 (by decide)⟩

/-! ### C8: negative client limit and the page-size parameter -/

/-- C8 (amended): under a negative client-side item limit the driver
never adds the page-size parameter `prefix + "limit"`: provided the
initial request does not carry it and no continuation token
reintroduces it, it is absent from every issued round's request and
from the final request. -/
theorem claim_C8_negative_limit_amended
    (sv : Nat → List (String × String) → JVal) (K : String) (fuel : Nat) :
    ∀ (st : QGState) (data : Option JVal) (count : Int) (ridx : Nat) (l : Int),
    st.limit = some l → l < 0 → st.pfx ++ "limit" = K →
    lmem st.request K = false →
    (∀ i req, K ∉ contKeys (sv i req)) →
    (∀ d, data = some d → K ∉ contKeys d) →
    (∀ req ∈ (qgRun sv fuel st data count ridx).trace, lmem req K = false) ∧
      lmem (qgRun sv fuel st data count ridx).st.request K = false := by
  induction fuel with
  | zero =>
    intro st data count ridx l hl hneg hK h hsv hdata
    exact ⟨by intro req hreq; simp [qgRun] at hreq, h⟩
  | succ fuel ih =>
    intro st data count ridx l hl hneg hK h hsv hdata
    have hup : limitUpdate st count = st := by
      unfold limitUpdate
      rw [limitReq_nonpos st count l hl (by omega)]
    cases data with
    | none =>
      cases hproc : qgProcess (limitUpdate st count)
          (sv ridx (limitUpdate st count).request) count with
      | stop ys st2 dk =>
        simp only [qgRun, hproc]
        obtain ⟨hreq, _⟩ := qgProcess_stop_inv _ _ _ _ _ _ hproc
        rw [hup] at hreq
        refine ⟨?_, by rw [hreq]; exact h⟩
        intro req hreq'
        rcases List.mem_singleton.mp hreq' with rfl
        rw [hup]
        exact h
      | loop ys st2 data' count' =>
        simp only [qgRun, hproc]
        obtain ⟨hlim2, hpfx2, _, _, _, _, _, hor⟩ :=
          qgProcess_loop_inv _ _ _ _ _ _ _ hproc
        rw [hup] at hlim2 hpfx2
        have h2 : lmem st2.request K = false := by
          rcases hor with ⟨_, hreq⟩ | ⟨_, qc, hqc, hreq⟩
          · rw [hreq, hup]; exact h
          · rw [hreq, hup]
            have hkeys : K ∉ contKeys (sv ridx (limitUpdate st count).request) :=
              hsv _ _
            unfold contKeys at hkeys
            rw [hqc] at hkeys
            exact lmem_contCopy_none st.request qc K h hkeys
        have hdata2 : ∀ d, data' = some d → K ∉ contKeys d := by
          intro d hd
          rcases hor with ⟨hd', _⟩ | ⟨hd', _⟩
          · rw [hd'] at hd
            injection hd with hd
            rw [← hd]
            exact hsv ridx (limitUpdate st count).request
          · rw [hd'] at hd; cases hd
        obtain ⟨htr, hst⟩ := ih st2 data' count' (ridx + 1) l
          (by rw [hlim2]; exact hl) hneg (by rw [hpfx2]; exact hK) h2 hsv hdata2
        refine ⟨?_, hst⟩
        intro req hreq'
        rcases List.mem_cons.mp hreq' with rfl | hmem
        · rw [hup]; exact h
        · exact htr req hmem
    | some d0 =>
      cases hproc : qgProcess (limitUpdate st count) d0 count with
      | stop ys st2 dk =>
        simp only [qgRun, hproc]
        obtain ⟨hreq, _⟩ := qgProcess_stop_inv _ _ _ _ _ _ hproc
        rw [hup] at hreq
        refine ⟨?_, by rw [hreq]; exact h⟩
        intro req hreq'
        simp at hreq'
      | loop ys st2 data' count' =>
        simp only [qgRun, hproc]
        obtain ⟨hlim2, hpfx2, _, _, _, _, _, hor⟩ :=
          qgProcess_loop_inv _ _ _ _ _ _ _ hproc
        rw [hup] at hlim2 hpfx2
        have h2 : lmem st2.request K = false := by
          rcases hor with ⟨_, hreq⟩ | ⟨_, qc, hqc, hreq⟩
          · rw [hreq, hup]; exact h
          · rw [hreq, hup]
            have hkeys : K ∉ contKeys d0 := hdata d0 rfl
            unfold contKeys at hkeys
            rw [hqc] at hkeys
            exact lmem_contCopy_none st.request qc K h hkeys
        have hdata2 : ∀ d, data' = some d → K ∉ contKeys d := by
          intro d hd
          rcases hor with ⟨hd', _⟩ | ⟨hd', _⟩
          · rw [hd'] at hd
            injection hd with hd
            rw [← hd]
            exact hdata d0 rfl
          · rw [hd'] at hd; cases hd
        obtain ⟨htr, hst⟩ := ih st2 data' count' ridx l
          (by rw [hlim2]; exact hl) hneg (by rw [hpfx2]; exact hK) h2 hsv hdata2
        exact ⟨htr, hst⟩

/-- Generator state over `prop=revisions` whose caller already supplied
`rvlimit=5`, with the client item limit set to -1. -/
def stC8 : QGState :=
  ⟨[("action", "query"), ("prop", "revisions"), ("rvlimit", "5"),
      ("indexpageids", "")],
    "revisions", "rv", "pages", ["revisions"], some (-1), some 500,
    some 500, []⟩

/-- Counterexample to C8 as stated: with the client limit set to the
negative value -1, the single issued round still carries the page-size
parameter `rvlimit` (the caller supplied it and the driver does not
delete it), so the parameter is not omitted from every round. -/
theorem claim_C8_negative_limit_cex :
    stC8.limit = some (-1) ∧
    (qgIter svPages stC8 2).trace =
      [[("action", "query"), ("prop", "revisions"), ("rvlimit", "5"),
        ("indexpageids", "")]] ∧
    lmem [("action", "query"), ("prop", "revisions"), ("rvlimit", "5"),
        ("indexpageids", "")] (stC8.pfx ++ "limit") = true := by
  refine ⟨rfl, by decide, by decide⟩

/-- State for the C8 witness: same query but with no caller-supplied
page-size parameter. -/
def stC8w : QGState :=
  ⟨[("action", "query"), ("prop", "revisions"), ("indexpageids", "")],
    "revisions", "rv", "pages", ["revisions"], some (-1), some 500,
    some 500, []⟩

/-- Witness for C8 (amended): on the concrete negative-limit run no
issued request and no final request carries `rvlimit`. -/
theorem claim_C8_negative_limit_witness :
    (∀ req ∈ (qgRun svPages 3 stC8w none 0 0).trace,
      lmem req "rvlimit" = false) ∧
    lmem (qgRun svPages 3 stC8w none 0 0).st.request "rvlimit" = false :=
  claim_C8_negative_limit_amended svPages "rvlimit" 3 stC8w none 0 0 (-1)
    rfl (by decide) (by decide) (by decide)
    (fun i req => by
      show "rvlimit" ∉ contKeys
        (JVal.obj [("query", JVal.obj [("pages", JVal.arr [JVal.str "p"])])])
      decide)
    (fun d hd => by cases hd)

/-! ### C5: ordering of mapping-shaped result collections -/

/-- C5 (amended): when the round's result collection is a mapping, the
driver's yield order follows this precedence: the server-supplied
`results` sub-key first if present, otherwise the server-supplied
`pageids` ID-ordering list, otherwise the keys in sorted order. -/
theorem claim_C5_mapping_order_amended (st : QGState)
    (q m : List (String × JVal)) (hlim : st.limit = none)
    (hrd : lget q st.resultkey = some (JVal.obj m)) :
    ((qgIter (fun _ _ => JVal.obj [("query", JVal.obj q)]) st 1).yields =
      orderItems (JVal.obj q) (JVal.obj m)) ∧
    (lmem m "results" = true →
      orderItems (JVal.obj q) (JVal.obj m) =
        jItems ((lget m "results").getD (JVal.arr []))) ∧
    (lmem m "results" = false → ∀ pids, lget q "pageids" = some pids →
      orderItems (JVal.obj q) (JVal.obj m) =
        (jItems pids).map (fun pk => (lget m (jAsKey pk)).getD (JVal.obj []))) ∧
    (lmem m "results" = false → lget q "pageids" = none →
      orderItems (JVal.obj q) (JVal.obj m) =
        (pySorted (m.map Prod.fst)).map
          (fun k => (lget m k).getD (JVal.obj []))) := by
  refine ⟨?_, ?_, ?_, ?_⟩
  · have hq : jGet (JVal.obj [("query", JVal.obj q)]) "query" =
        some (JVal.obj q) := by simp [jGet, lget]
    have hrk : jGet (JVal.obj q) (limitUpdate st 0).resultkey =
        some (JVal.obj m) := by
      show jGet (JVal.obj q) st.resultkey = some (JVal.obj m)
      simpa [jGet] using hrd
    have hcont : jGet (JVal.obj [("query", JVal.obj q)]) "query-continue" =
        none := by simp [jGet, lget]
    have hlim1 : (normUpdate (limitUpdate st 0) (JVal.obj q)).limit = none := hlim
    have hproc : qgProcess (limitUpdate st 0)
        (JVal.obj [("query", JVal.obj q)]) 0 =
        StepOut.stop (orderItems (JVal.obj q) (JVal.obj m))
          (normUpdate (limitUpdate st 0) (JVal.obj q))
          (JVal.obj [("query", JVal.obj q)]) := by
      unfold qgProcess
      rw [if_neg (by simp [jTruthy, jIsObj])]
      simp only [hq, hrk]
      show qgTail (normUpdate (limitUpdate st 0) (JVal.obj q)) _ _ = _
      rw [hlim1, yieldLoop_no_limit]
      unfold qgTail
      simp only [hlim1, limTruthy, Bool.and_false, hcont]
      rfl
    unfold qgIter
    simp only [qgRun, hproc]
  · intro h
    simp only [orderItems]
    rw [h]
    simp
  · intro h pids hp
    have hp' : jGet (JVal.obj q) "pageids" = some pids := by
      simpa [jGet] using hp
    simp only [orderItems]
    rw [h, hp']
    simp
  · intro h hp
    have hp' : jGet (JVal.obj q) "pageids" = none := by
      simpa [jGet] using hp
    simp only [orderItems]
    rw [h, hp']
    simp

/-- Query object of the C5 concrete check: the result collection is a
mapping that carries both a `results` sub-key and a sibling key `x`,
and the response also supplies a `pageids` ordering naming `x`. -/
def qC5 : List (String × JVal) :=
  [("pages", JVal.obj [("results", JVal.arr [JVal.str "R"]),
      ("x", JVal.str "X")]),
   ("pageids", JVal.arr [JVal.str "x"])]

/-- Driver state for the C5 concrete check. -/
def stC5 : QGState :=
  ⟨[("action", "query")], "foo", "", "pages", ["foo"], none, none, none, []⟩

/-- Counterexample to C5 as stated: with both an ID-ordering list and a
`results` sub-key present, the code yields the `results` content, not
the ID-ordered items the claimed precedence requires. -/
theorem claim_C5_mapping_order_cex :
    (qgIter (fun _ _ => JVal.obj [("query", JVal.obj qC5)]) stC5 1).yields =
      [JVal.str "R"] ∧
    (jItems (JVal.arr [JVal.str "x"])).map
      (fun pk => (lget [("results", JVal.arr [JVal.str "R"]),
          ("x", JVal.str "X")] (jAsKey pk)).getD (JVal.obj [])) =
        [JVal.str "X"] ∧
    ([JVal.str "R"] : List JVal) ≠ [JVal.str "X"] := by
  refine ⟨rfl, rfl, by simp⟩

/-! ### C4: a positive client limit halts after exactly L items -/

/-- Response of one continuation round: the items under the result key,
plus a continuation section when more rounds follow. -/
def roundResp (rk ck : String) (r : List JVal) (more : Bool) : JVal :=
  JVal.obj ([("query", JVal.obj [(rk, JVal.arr r)])] ++
    (if more then
      [("query-continue", JVal.obj [(ck, JVal.obj [("cont", JVal.str "x")])])]
    else []))

/-- Server paging a fixed list of rounds: the `i`-th submission returns
the `i`-th round with a continuation section unless it is the last. -/
def listServer (rk ck : String) (rounds : List (List JVal)) :
    Nat → List (String × String) → JVal :=
  fun i _ =>
    match rounds.drop i with
    | [] => JVal.obj []
    | r :: rs => roundResp rk ck r (!rs.isEmpty)

/-- Number of round-trips needed to reach `L` more items: the round in
which the `L`-th remaining item arrives. -/
def roundsFor (L : Int) : List (List JVal) → Nat
  | [] => 0
  | r :: rs => if (r.length : Int) ≥ L then 1 else 1 + roundsFor (L - r.length) rs

/-- Behaviour of the item loop under a positive limit when every item
counts one: it stops exactly at the limit when the round can reach it,
and yields the whole round otherwise. -/
theorem yieldLoop_plain (ck : List String) (L : Int) (hL : 0 < L)
    (r : List JVal) (hplain : ∀ it ∈ r, countInc ck it = 1) :
    ∀ count : Int, count < L →
    (if (r.length : Int) ≥ L - count then
      yieldLoop ck (some L) r count = ⟨r.take (L - count).toNat, L, true⟩
    else
      yieldLoop ck (some L) r count = ⟨r, count + r.length, false⟩) := by
  induction r with
  | nil =>
    intro count hcount
    rw [if_neg (by simp only [List.length_nil]; omega)]
    simp [yieldLoop]
  | cons it rest ih =>
    intro count hcount
    have hit : countInc ck it = 1 := hplain it (List.mem_cons_self _ _)
    have hrest : ∀ x ∈ rest, countInc ck x = 1 :=
      fun x hx => hplain x (List.mem_cons_of_mem _ hx)
    by_cases hreach : count + 1 ≥ L
    · rw [if_pos (by simp only [List.length_cons]; push_cast; omega)]
      simp only [yieldLoop, hit]
      have hcond : (!(L == 0) && decide (L > 0) &&
          decide (count + 1 ≥ L)) = true := by
        simp only [Bool.and_eq_true, decide_eq_true_eq, Bool.not_eq_true',
          beq_eq_false_iff_ne]
        exact ⟨⟨by omega, hL⟩, hreach⟩
      rw [if_pos hcond]
      have h1 : (L - count).toNat = 1 := by omega
      have hc1 : count + 1 = L := by omega
      rw [h1, hc1]
      rfl
    · have ih' := ih hrest (count + 1) (by omega)
      simp only [yieldLoop, hit]
      have hcond : (!(L == 0) && decide (L > 0) &&
          decide (count + 1 ≥ L)) ≠ true := by
        simp [hreach]
      by_cases hrl : (rest.length : Int) ≥ L - (count + 1)
      · rw [if_pos (show ((it :: rest).length : Int) ≥ L - count by
          simp only [List.length_cons]; push_cast; omega)]
        rw [if_neg hcond]
        rw [if_pos hrl] at ih'
        have htake : (L - count).toNat = (L - (count + 1)).toNat + 1 := by
          omega
        rw [ih', htake, List.take_succ_cons]
      · rw [if_neg (show ¬(((it :: rest).length : Int) ≥ L - count) by
          simp only [List.length_cons]; push_cast; omega)]
        rw [if_neg hcond]
        rw [if_neg hrl] at ih'
        rw [ih']
        have hcnt : count + 1 + (rest.length : Int) =
            count + ((it :: rest).length : Int) := by
          simp only [List.length_cons]; push_cast; ring
        rw [hcnt]

theorem claim_C4_run (rk ck md : String) (hmd : md ≠ "random") (L : Int)
    (hL : 0 < L) :
    ∀ (rest : List (List JVal)), ∀ (done : List (List JVal)) (st : QGState)
      (count : Int) (fuel : Nat),
    st.resultkey = rk → st.continuekey = [ck] → st.limit = some L →
    st.module = md →
    (∀ it ∈ rest.flatten, countInc [ck] it = 1) →
    count < L → L - count ≤ (rest.flatten.length : Int) →
    rest.length ≤ fuel →
    ∃ tr stF dF,
      qgRun (listServer rk ck (done ++ rest)) fuel st none count done.length =
        ⟨rest.flatten.take (L - count).toNat, tr, stF, dF, true⟩ ∧
      tr.length = roundsFor (L - count) rest := by
  intro rest
  induction rest with
  | nil =>
    intro done st count fuel _ _ _ _ _ hcount hle _
    simp at hle
    omega
  | cons r rs ih =>
    intro done st count fuel hrk hck hlim hmod hplain hcount hle hfuel
    cases fuel with
    | zero => simp at hfuel
    | succ f =>
      have hsv : listServer rk ck (done ++ r :: rs) done.length
          (limitUpdate st count).request = roundResp rk ck r (!rs.isEmpty) := by
        unfold listServer
        rw [List.drop_left]
      have htruthy : ¬((!(jTruthy (roundResp rk ck r (!rs.isEmpty))) ||
          !(jIsObj (roundResp rk ck r (!rs.isEmpty)))) = true) := by
        unfold roundResp jTruthy jIsObj
        simp
      have hq : jGet (roundResp rk ck r (!rs.isEmpty)) "query" =
          some (JVal.obj [(rk, JVal.arr r)]) := by
        unfold roundResp jGet
        simp [lget]
      have hrk1 : jGet (JVal.obj [(rk, JVal.arr r)])
          (limitUpdate st count).resultkey = some (JVal.arr r) := by
        show jGet (JVal.obj [(rk, JVal.arr r)]) st.resultkey = some (JVal.arr r)
        rw [hrk]
        simp [jGet, lget]
      have hck2 : (normUpdate (limitUpdate st count)
          (JVal.obj [(rk, JVal.arr r)])).continuekey = [ck] := hck
      have hlim2 : (normUpdate (limitUpdate st count)
          (JVal.obj [(rk, JVal.arr r)])).limit = some L := hlim
      have hmod2 : (normUpdate (limitUpdate st count)
          (JVal.obj [(rk, JVal.arr r)])).module = md := hmod
      have hord : orderItems (JVal.obj [(rk, JVal.arr r)]) (JVal.arr r) = r := rfl
      have hyl := yieldLoop_plain [ck] L hL r
        (fun it hit => hplain it
          (by rw [List.flatten_cons]; exact List.mem_append_left _ hit))
        count hcount
      by_cases hreach : (r.length : Int) ≥ L - count
      · rw [if_pos hreach] at hyl
        have hproc : qgProcess (limitUpdate st count)
            (roundResp rk ck r (!rs.isEmpty)) count =
            StepOut.stop (r.take (L - count).toNat)
              (normUpdate (limitUpdate st count) (JVal.obj [(rk, JVal.arr r)]))
              (roundResp rk ck r (!rs.isEmpty)) := by
          unfold qgProcess
          rw [if_neg htruthy]
          simp only [hq, hrk1]
          show qgTail _ _ _ = _
          rw [hck2, hlim2, hord, hyl]
          unfold qgTail
          simp
        refine ⟨[(limitUpdate st count).request],
          normUpdate (limitUpdate st count) (JVal.obj [(rk, JVal.arr r)]),
          some (roundResp rk ck r (!rs.isEmpty)), ?_, ?_⟩
        · simp only [qgRun, hsv, hproc]
          rw [List.flatten_cons,
            List.take_append_of_le_length (by omega)]
        · simp [roundsFor, hreach]
      · rw [if_neg hreach] at hyl
        push_neg at hreach
        have hrs : rs ≠ [] := by
          intro h0
          subst h0
          simp at hle
          omega
        have hmore : (!rs.isEmpty) = true := by
          cases rs with
          | nil => exact absurd rfl hrs
          | cons a t => rfl
        rw [hmore] at hsv htruthy hq
        have hqcget : jGet (roundResp rk ck r true) "query-continue" =
            some (JVal.obj [(ck, JVal.obj [("cont", JVal.str "x")])]) := by
          unfold roundResp jGet
          simp [lget]
        have hproc : qgProcess (limitUpdate st count)
            (roundResp rk ck r true) count =
            StepOut.loop r
              { normUpdate (limitUpdate st count)
                  (JVal.obj [(rk, JVal.arr r)]) with
                request := contCopy (normUpdate (limitUpdate st count)
                  (JVal.obj [(rk, JVal.arr r)])).request
                  (JVal.obj [(ck, JVal.obj [("cont", JVal.str "x")])]) }
              none (count + r.length) := by
          unfold qgProcess
          rw [if_neg htruthy]
          simp only [hq, hrk1]
          show qgTail _ _ _ = _
          rw [hck2, hlim2, hord, hyl]
          unfold qgTail
          rw [hmod2]
          simp only [hmd, hqcget]
          have hbeq : (md == "random") = false := by
            simp [hmd]
          rw [hck2, hbeq]
          simp [jHasKey, jGet, lget]
          exact hlim2
        have hplain' : ∀ it ∈ rs.flatten, countInc [ck] it = 1 := by
          intro it hit
          exact hplain it (by rw [List.flatten_cons]; exact
            List.mem_append_right _ hit)
        have hcount' : count + (r.length : Int) < L := by omega
        have hle' : L - (count + (r.length : Int)) ≤
            (rs.flatten.length : Int) := by
          rw [List.flatten_cons, List.length_append] at hle
          push_cast at hle ⊢
          omega
        obtain ⟨tr', stF, dF, hrun, hlen⟩ := ih (done ++ [r])
          { normUpdate (limitUpdate st count)
              (JVal.obj [(rk, JVal.arr r)]) with
            request := contCopy (normUpdate (limitUpdate st count)
              (JVal.obj [(rk, JVal.arr r)])).request
              (JVal.obj [(ck, JVal.obj [("cont", JVal.str "x")])]) }
          (count + r.length) f hrk hck hlim hmod hplain' hcount' hle'
          (by simp at hfuel ⊢; omega)
        rw [show (done ++ [r]) ++ rs = done ++ r :: rs by simp] at hrun
        rw [show (done ++ [r]).length = done.length + 1 by simp] at hrun
        refine ⟨(limitUpdate st count).request :: tr', stF, dF, ?_, ?_⟩
        · simp only [qgRun, hsv, hproc, hrun]
          rw [List.flatten_cons]
          have htk : (L - count).toNat = r.length + (L - (count + (r.length : Int))).toNat := by
            omega
          rw [htk, List.take_append]
        · unfold roundsFor
          rw [if_neg (by omega)]
          simp only [List.length_cons, hlen]
          have : L - count - (r.length : Int) = L - (count + (r.length : Int)) := by
            ring
          rw [this]
          omega

/-- C4: with a positive client-side item limit `L` smaller than the number
of available items, iteration yields exactly the first `L` items and then
halts (`finished` with the limit-triggering item included in the yields,
so the stop comes strictly after yielding it), and the driver issues
exactly `roundsFor L rounds` round-trips: up to and including the round
containing the `L`-th item, never one beyond. -/
theorem claim_C4_limit_halts (rk ck md : String) (L : Int)
    (rounds : List (List JVal)) (st : QGState) (fuel : Nat)
    (hmd : md ≠ "random") (hL : 0 < L)
    (hrk : st.resultkey = rk) (hck : st.continuekey = [ck])
    (hlim : st.limit = some L) (hmod : st.module = md)
    (hplain : ∀ it ∈ rounds.flatten, countInc [ck] it = 1)
    (hlt : L < (rounds.flatten.length : Int))
    (hfuel : rounds.length ≤ fuel) :
    ∃ tr stF dF,
      qgIter (listServer rk ck rounds) st fuel =
        ⟨rounds.flatten.take L.toNat, tr, stF, dF, true⟩ ∧
      (rounds.flatten.take L.toNat).length = L.toNat ∧
      tr.length = roundsFor L rounds := by
  obtain ⟨tr, stF, dF, h1, h2⟩ := claim_C4_run rk ck md hmd L hL rounds []
    st 0 fuel hrk hck hlim hmod hplain (by omega) (by omega) hfuel
  refine ⟨tr, stF, dF, ?_, ?_, ?_⟩
  · simpa [qgIter] using h1
  · simp only [List.length_take]
    omega
  · simpa using h2

/-- Concrete driver state for the C4 witness: limit 3, three rounds of
sizes 2, 2, 1. -/
def stC4 : QGState :=
  ⟨[("action", "query")], "mod", "", "pages", ["cont"], some 3, none,
    none, []⟩

def roundsC4 : List (List JVal) :=
  [[JVal.str "a", JVal.str "b"], [JVal.str "c", JVal.str "d"],
    [JVal.str "e"]]

/-- Witness for C4 at limit 3 over five items in rounds of 2, 2, 1: the
driver yields the first three items and stops after two round-trips. -/
theorem claim_C4_limit_halts_witness :
    (3 : Int) < (roundsC4.flatten.length : Int) ∧
    ∃ tr stF dF,
      qgIter (listServer "pages" "cont" roundsC4) stC4 3 =
        ⟨roundsC4.flatten.take (3 : Int).toNat, tr, stF, dF, true⟩ ∧
      (roundsC4.flatten.take (3 : Int).toNat).length = (3 : Int).toNat ∧
      tr.length = roundsFor 3 roundsC4 :=
  ⟨by decide,
   claim_C4_limit_halts "pages" "cont" "mod" 3 roundsC4 stC4 3
     (by decide) (by decide) rfl rfl rfl rfl (by decide) (by decide)
     (by decide)⟩

/-- Witness for C5 (amended) at the concrete response. -/
theorem claim_C5_mapping_order_witness :
    ((qgIter (fun _ _ => JVal.obj [("query", JVal.obj qC5)]) stC5 1).yields =
      orderItems (JVal.obj qC5)
        (JVal.obj [("results", JVal.arr [JVal.str "R"]),
          ("x", JVal.str "X")])) ∧
    (lmem [("results", JVal.arr [JVal.str "R"]), ("x", JVal.str "X")]
        "results" = true →
      orderItems (JVal.obj qC5)
          (JVal.obj [("results", JVal.arr [JVal.str "R"]),
            ("x", JVal.str "X")]) =
        jItems ((lget [("results", JVal.arr [JVal.str "R"]),
          ("x", JVal.str "X")] "results").getD (JVal.arr []))) ∧
    (lmem [("results", JVal.arr [JVal.str "R"]), ("x", JVal.str "X")]
        "results" = false →
      ∀ pids, lget qC5 "pageids" = some pids →
      orderItems (JVal.obj qC5)
          (JVal.obj [("results", JVal.arr [JVal.str "R"]),
            ("x", JVal.str "X")]) =
        (jItems pids).map
          (fun pk => (lget [("results", JVal.arr [JVal.str "R"]),
            ("x", JVal.str "X")] (jAsKey pk)).getD (JVal.obj []))) ∧
    (lmem [("results", JVal.arr [JVal.str "R"]), ("x", JVal.str "X")]
        "results" = false →
      lget qC5 "pageids" = none →
      orderItems (JVal.obj qC5)
          (JVal.obj [("results", JVal.arr [JVal.str "R"]),
            ("x", JVal.str "X")]) =
        (pySorted ([("results", JVal.arr [JVal.str "R"]),
            ("x", JVal.str "X")].map Prod.fst)).map
          (fun k => (lget [("results", JVal.arr [JVal.str "R"]),
            ("x", JVal.str "X")] k).getD (JVal.obj []))) :=
  claim_C5_mapping_order_amended stC5 qC5
    [("results", JVal.arr [JVal.str "R"]), ("x", JVal.str "X")] rfl rfl

/-! ## CachedRequest (api.py lines 594-704), for C1

The cache file holds a pickled triple `(uniquedescr, data, cachetime)`;
we model the file (and its absence, the `IOError` branch) as an
`Option` of that triple, times as integers, and the payload as `JVal`.
`_expired(dt)` is `dt + self.expiry < now`. -/

/-- Model of `CachedRequest._load_cache` (api.py lines 674-689): `none`
when the file is missing (`IOError`), the stored description does not
match (`assert` fails, caught by the bare `except`), or the entry is
expired; otherwise the stored payload. -/
def load_cache (descr : String) (expiry now : Int)
    (store : Option (String × JVal × Int)) : Option JVal :=
  match store with
  | none => none
  | some (d, data, t) =>
    if d = descr then
      if t + expiry < now then none else some data
    else none

/-- Observable outcome of `CachedRequest.submit` (api.py lines 697-704):
the returned payload, how many times the transport collaborator
(`super().submit()`) ran, which payloads went through `_post_process`,
and the cache file afterwards. -/
structure CSubmit where
  result : JVal
  transport_calls : Nat
  post_processed : List JVal
  cache_after : Option (String × JVal × Int)
deriving Repr

/-- Model of `CachedRequest.submit`: on a cache hit return the cached
payload after `_post_process`; on a miss run the transport (which
post-processes the fresh payload inside `Request.submit`, api.py line
527) and `_write_cache` the result. -/
def cachedSubmit (descr : String) (expiry now : Int)
    (store : Option (String × JVal × Int)) (fresh : JVal) : CSubmit :=
  match load_cache descr expiry now store with
  | some data => ⟨data, 0, [data], store⟩
  | none => ⟨fresh, 1, [fresh], some (descr, fresh, now)⟩

/-- C1: for a cache entry that exists, matches the request's unique
description and is not expired, `submit()` returns the cached payload,
never invokes the transport collaborator, still runs `_post_process` on
that cached payload, and leaves the cache file untouched. -/
theorem claim_C1_cache_hit (descr : String) (expiry now t : Int)
    (data fresh : JVal) (hfresh : ¬(t + expiry < now)) :
    cachedSubmit descr expiry now (some (descr, data, t)) fresh =
      ⟨data, 0, [data], some (descr, data, t)⟩ := by
  have hl : load_cache descr expiry now (some (descr, data, t)) =
      some data := by
    show (if descr = descr then
      if t + expiry < now then none else some data else none) = some data
    rw [if_pos rfl, if_neg hfresh]
  simp only [cachedSubmit, hl]

/-- Witness for C1: a concrete fresh entry (stored at time 0, expiry 5,
now 3) is served from the cache. -/
theorem claim_C1_cache_hit_witness :
    ¬((0 : Int) + 5 < 3) ∧
    cachedSubmit "k" 5 3 (some ("k", JVal.str "payload", 0))
        (JVal.str "other") =
      ⟨JVal.str "payload", 0, [JVal.str "payload"],
        some ("k", JVal.str "payload", 0)⟩ :=
  ⟨by decide,
   claim_C1_cache_hit "k" 5 3 0 (JVal.str "payload") (JVal.str "other")
     (by decide)⟩

/-! ## Throttle (throttle.py), for C7 and C9

Wall-clock quantities are rationals; the sqlite `throttle` table is a
list of rows `(site, expiry, read)` and its four statements inside
`get_delay` become list operations. `Throttle.wait` sleeps `seconds`
only when positive (lines 155-168); `waitSleep` returns the slept
duration. -/

/-- Duration actually slept by `Throttle.wait` (throttle.py lines
149-168): nothing when `seconds <= 0`. -/
def waitSleep (seconds : ℚ) : ℚ :=
  if seconds ≤ 0 then 0 else seconds

/-- Model of `Throttle.lag`'s delay (throttle.py line 203):
`min(max(5, lagtime // 2), 120)` with Python's floor division. -/
def lagDelay (lagtime : Int) : Int :=
  min (max 5 (Int.fdiv lagtime 2)) 120

/-- The spec's formula for C7, `clamp(L/2, 5, 120)` with exact (rational)
halving, stated for comparison with `lagDelay`. -/
def lagDelaySpec (lagtime : ℚ) : ℚ :=
  min (max 5 (lagtime / 2)) 120

/-- Duration slept by `Throttle.lag` (throttle.py lines 205-207): the
computed delay minus the elapsed lock-acquisition time, through
`self.wait`. -/
def lagSleep (lagtime : Int) (elapsed : ℚ) : ℚ :=
  waitSleep ((lagDelay lagtime : ℚ) - elapsed)

/-- Counterexample to C7 as stated: for reported lag 21 the code
computes `21 // 2 = 10`, not the claimed `clamp(10.5, 5, 120) = 10.5`. -/
theorem claim_C7_lag_cex :
    lagDelay 21 = 10 ∧ lagDelaySpec 21 = 21 / 2 ∧
    ((lagDelay 21 : ℚ) ≠ lagDelaySpec 21) := by
  have h1 : lagDelay 21 = 10 := by decide
  have h2 : lagDelaySpec 21 = 21 / 2 := by
    unfold lagDelaySpec
    rw [max_eq_right (by norm_num), min_eq_left (by norm_num)]
  refine ⟨h1, h2, ?_⟩
  rw [h1, h2]
  norm_num

/-- C7 (amended): the seizure duration is `clamp(L // 2, 5, 120)` — the
spec's clamp formula evaluated at the floored half, i.e. it lies in
`[5, 120]`, equals `clamp(x/2, 5, 120)` for `x = 2 * (L // 2)`, and
agrees with the spec's `clamp(L/2, 5, 120)` exactly when `L` is even —
and the handler then sleeps that duration minus the elapsed
lock-acquisition time whenever that difference is positive. -/
theorem claim_C7_lag_floor_amended (L : Int) :
    5 ≤ lagDelay L ∧ lagDelay L ≤ 120 ∧
    (lagDelay L : ℚ) = lagDelaySpec ((2 * Int.fdiv L 2 : Int) : ℚ) ∧
    (∀ k : Int, L = 2 * k → (lagDelay L : ℚ) = lagDelaySpec (L : ℚ)) ∧
    (∀ e : ℚ, 0 < (lagDelay L : ℚ) - e →
      lagSleep L e = (lagDelay L : ℚ) - e) := by
  refine ⟨?_, ?_, ?_, ?_, ?_⟩
  · unfold lagDelay
    omega
  · unfold lagDelay
    omega
  · unfold lagDelay lagDelaySpec
    have h2 : (((2 * Int.fdiv L 2 : Int) : ℚ)) / 2 =
        ((Int.fdiv L 2 : Int) : ℚ) := by
      push_cast
      ring
    rw [h2]
    push_cast
    rfl
  · intro k hk
    subst hk
    have hf : Int.fdiv (2 * k) 2 = k := Int.mul_fdiv_cancel_left k (by norm_num)
    unfold lagDelay lagDelaySpec
    rw [hf]
    have h2 : (((2 * k : Int)) : ℚ) / 2 = ((k : Int) : ℚ) := by
      push_cast
      ring
    rw [h2]
    push_cast
    rfl
  · intro e he
    unfold lagSleep waitSleep
    rw [if_neg (not_le.mpr he)]

/-- Witness for C7 (amended) at lag 20 and elapsed time 3: delay 10,
sleep 7. -/
theorem claim_C7_lag_floor_witness :
    5 ≤ lagDelay 20 ∧ lagDelay 20 ≤ 120 ∧
    (lagDelay 20 : ℚ) = lagDelaySpec ((2 * Int.fdiv 20 2 : Int) : ℚ) ∧
    (lagDelay 20 : ℚ) = lagDelaySpec ((20 : Int) : ℚ) ∧
    0 < (lagDelay 20 : ℚ) - 3 ∧
    lagSleep 20 3 = (lagDelay 20 : ℚ) - 3 := by
  obtain ⟨h1, h2, h3, h4, h5⟩ := claim_C7_lag_floor_amended 20
  have hd : lagDelay 20 = 10 := by decide
  have hpos : 0 < (lagDelay 20 : ℚ) - 3 := by
    rw [hd]
    norm_num
  exact ⟨h1, h2, h3, h4 10 (by norm_num), hpos, h5 3 hpos⟩

/-- A row of the sqlite `throttle` table (throttle.py lines 49-53):
site, expiry time and the read/write flag. -/
structure TRow where
  site : String
  expiry : ℚ
  read : Bool
deriving Repr, DecidableEq

/-- The `INSERT OR IGNORE` statement (throttle.py lines 126-129): add a
row `(site, now, read)` unless one with the same `(site, read)` key
exists. -/
def insertOrIgnore (rows : List TRow) (site : String) (now : ℚ)
    (read : Bool) : List TRow :=
  if rows.any (fun r => r.site == site && r.read == read) then rows
  else rows ++ [⟨site, now, read⟩]

/-- The `UPDATE` statement (throttle.py lines 130-133): push the
matching row's expiry to `max(now, expiry) + delay`. -/
def updateExpiry (rows : List TRow) (site : String) (read : Bool)
    (now delay : ℚ) : List TRow :=
  rows.map (fun r =>
    if r.site == site && r.read == read then
      ⟨r.site, max now r.expiry + delay, r.read⟩
    else r)

/-- The `DELETE` statement (throttle.py lines 135-137): drop expired
rows of other sites. -/
def deleteExpired (rows : List TRow) (site : String) (now : ℚ) :
    List TRow :=
  rows.filter (fun r => !(decide (r.expiry < now) && !(r.site == site)))

/-- The `SELECT expiry` statement (throttle.py lines 138-140). -/
def selectExpiry (rows : List TRow) (site : String) (read : Bool) :
    List ℚ :=
  (rows.filter (fun r => r.site == site && r.read == read)).map
    (fun r => r.expiry)

/-- The table after `get_delay`'s transaction. -/
def throttleRows (rows : List TRow) (site : String) (read : Bool)
    (now delay : ℚ) : List TRow :=
  deleteExpired (updateExpiry (insertOrIgnore rows site now read)
    site read now delay) site now

/-- Core of `Throttle.get_delay` (throttle.py lines 111-147) for a given
nominal delay and read flag: run the transaction and return
`max(expiry - delay - now, 0.0)`; `none` models the `assert` failing
when the select does not return exactly one row. -/
def getDelayCore (rows : List TRow) (site : String) (read : Bool)
    (now delay : ℚ) : Option ℚ :=
  match selectExpiry (throttleRows rows site read now delay) site read with
  | [e] => some (max (e - delay - now) 0)
  | _ => none

/-- `Throttle.get_delay` (throttle.py lines 111-147): pick the write or
read nominal delay and the read flag (`0 if write else 1`), then run the
transaction. -/
def get_delay (rows : List TRow) (site : String) (write : Bool)
    (read_delay write_delay now : ℚ) : Option ℚ :=
  getDelayCore rows site (!write) now
    (if write then write_delay else read_delay)

/-- C9: whatever the shared table holds, `get_delay` clamps its result
at zero, and `Throttle.wait` called with a non-positive number of
seconds sleeps for nothing, so no caller ever sleeps for a negative
duration. -/
theorem claim_C9_nonneg_sleep :
    (∀ rows site write rd wd now q,
      get_delay rows site write rd wd now = some q → 0 ≤ q) ∧
    (∀ s : ℚ, s ≤ 0 → waitSleep s = 0) := by
  constructor
  · intro rows site write rd wd now q h
    unfold get_delay getDelayCore at h
    split at h
    · simp only [Option.some.injEq] at h
      rw [← h]
      exact le_max_right _ _
    · exact absurd h (by simp)
  · intro s hs
    unfold waitSleep
    rw [if_pos hs]

/-- Witness for C9: on an empty table with read delay 2 the computed
wait is exactly 0 (and hence non-negative), and `wait (-3)` sleeps for
nothing. -/
theorem claim_C9_nonneg_sleep_witness :
    get_delay [] "s" false 2 7 0 = some 0 ∧ (0 : ℚ) ≤ 0 ∧
    waitSleep (-3) = 0 := by
  have hg : get_delay [] "s" false 2 7 0 = some 0 := by
    norm_num [get_delay, getDelayCore, throttleRows, deleteExpired,
      updateExpiry, insertOrIgnore, selectExpiry]
  exact ⟨hg, claim_C9_nonneg_sleep.1 [] "s" false 2 7 0 0 hg,
    claim_C9_nonneg_sleep.2 (-3) (by norm_num)⟩

end PWB
